import Mathlib

/-!
# Verification of the proofreading pipeline

A shallow embedding of the document proofreading scripts: the chunker
(`chunkText`), the corrector (`applyAutoCorrections`), the annotator
(`insertSuggestionComments`), the resolver (`applySuggestions` from the
apply-suggestions CLI) and the orchestrator's suggestion-id assignment.

JavaScript strings are modelled as `List Char`; `split("\n")`, `join("\n")`,
`trimEnd`, `String.replace` (first-occurrence, with `$`-substitution
patterns) and the resolver's marker regex are modelled operationally.
-/

namespace Proofread

/-! ## JS character classes -/

/-- JS regex `\s` (WhiteSpace and LineTerminator code points). -/
def jsWs (c : Char) : Bool :=
  c == ' ' || c == '\t' || c == '\n' || c == '\r' ||
  c.val == 11 || c.val == 12 || c.val == 160 || c.val == 5760 ||
  (8192 ≤ c.val && c.val ≤ 8202) ||
  c.val == 8232 || c.val == 8233 || c.val == 8239 || c.val == 8287 ||
  c.val == 12288 || c.val == 65279

/-- JS regex `.` (without the `s` flag): anything but a LineTerminator. -/
def isDotChar (c : Char) : Bool :=
  !(c == '\n' || c == '\r' || c.val == 8232 || c.val == 8233)

/-- JS regex `\d`. -/
def isDigitCh (c : Char) : Bool := '0' ≤ c && c ≤ '9'

/-! ## List-of-char string helpers -/

/-- `startsWithL pat s`: `pat` is a leading run of `s`. -/
def startsWithL : List Char → List Char → Bool
  | [], _ => true
  | _ :: _, [] => false
  | p :: ps, c :: cs => p == c && startsWithL ps cs

/-- `infixIn pat s`: `pat` occurs contiguously somewhere in `s`
(JS `String.includes` / regex literal search). -/
def infixIn (pat : List Char) : List Char → Bool
  | [] => startsWithL pat []
  | c :: cs => startsWithL pat (c :: cs) || infixIn pat cs

/-- Match a literal, returning the rest of the input. -/
def lit (w s : List Char) : Option (List Char) :=
  if startsWithL w s then some (s.drop w.length) else none

/-- JS `text.split("\n")` (never returns the empty list; `"" ↦ [""]`). -/
def splitLines : List Char → List (List Char)
  | [] => [[]]
  | c :: r =>
    if c = '\n' then [] :: splitLines r
    else
      match splitLines r with
      | [] => [[c]]
      | l :: ls => (c :: l) :: ls

/-- JS `lines.join("\n")`. -/
def joinLines : List (List Char) → List Char
  | [] => []
  | [l] => l
  | l :: l' :: ls => l ++ '\n' :: joinLines (l' :: ls)

/-- JS `String.prototype.trimEnd`. -/
def trimEnd (s : List Char) : List Char :=
  (s.reverse.dropWhile jsWs).reverse

/-- `lines[i] = f lines[i]` (no-op when out of range). -/
def updateAt : Nat → (List Char → List Char) → List (List Char) → List (List Char)
  | _, _, [] => []
  | 0, f, l :: ls => f l :: ls
  | i + 1, f, l :: ls => l :: updateAt i f ls

/-! ## The marker grammar

The resolver matches
`/\s*<!--\s*\[(S\d+)\]\s*REVIEW:\s*(.*?)(?:\s*Suggested:\s*"([^"]*)")?\s*-->/g`
on each line.  The greedy `\s*`, `\d+` and `[^"]*` pieces are each followed
by a character they can never match, so maximal munch is faithful; the lazy
`(.*?)` is modelled by trying the continuation at each position in turn,
the optional group being tried before the group-absent alternative, exactly
as a backtracking regex engine does. -/

def openL : List Char := ['<', '!', '-', '-']
def arrowL : List Char := ['-', '-', '>']
def reviewL : List Char := ['R', 'E', 'V', 'I', 'E', 'W', ':']
def sugL : List Char := ['S', 'u', 'g', 'g', 'e', 's', 't', 'e', 'd', ':']

/-- One parsed marker: the whole matched text `match[0]`, the id `match[1]`,
the description `match[2]` and the optional replacement `match[3]`. -/
structure MarkerMatch where
  full : List Char
  id : List Char
  text : List Char
  suggested : Option (List Char)
deriving DecidableEq, Repr

/-- The optional `(?:\s*Suggested:\s*"([^"]*)")?` group followed by `\s*-->`,
group present.  Returns (consumed text, captured group, rest).  The greedy
`[^"]*` is `takeWhile (· != '"')`; the closing quote is `lit ['"']` on what
remains. -/
def matchTailSug (s : List Char) : Option (List Char × Option (List Char) × List Char) :=
  match lit sugL (s.dropWhile jsWs) with
  | none => none
  | some s2 =>
    match lit ['\"'] (s2.dropWhile jsWs) with
    | none => none
    | some s4 =>
      match lit ['\"'] (s4.dropWhile (fun c => c != '\"')) with
      | none => none
      | some s6 =>
        match lit arrowL (s6.dropWhile jsWs) with
        | none => none
        | some s8 =>
          some (s.takeWhile jsWs ++ sugL ++ s2.takeWhile jsWs ++
                  '\"' :: s4.takeWhile (fun c => c != '\"') ++
                  '\"' :: s6.takeWhile jsWs ++ arrowL,
                some (s4.takeWhile (fun c => c != '\"')), s8)

/-- `\s*-->` with the optional group absent. -/
def matchTailEnd (s : List Char) : Option (List Char × Option (List Char) × List Char) :=
  match lit arrowL (s.dropWhile jsWs) with
  | some s2 => some (s.takeWhile jsWs ++ arrowL, none, s2)
  | none => none

/-- The continuation after the lazy `(.*?)`: the optional group (tried
first, as the engine does) or directly `\s*-->`. -/
def matchTail (s : List Char) : Option (List Char × Option (List Char) × List Char) :=
  match matchTailSug s with
  | some r => some r
  | none => matchTailEnd s

/-- The lazy `(.*?)` loop: try the continuation at each position, consuming
one `.`-matchable character on failure.  Returns
(text captured, tail consumed by the continuation, group 3, rest). -/
def findText : List Char → List Char → Option (List Char × List Char × Option (List Char) × List Char)
  | acc, [] =>
    match matchTail [] with
    | some (tc, sug, rest) => some (acc.reverse, tc, sug, rest)
    | none => none
  | acc, c :: cs =>
    match matchTail (c :: cs) with
    | some (tc, sug, rest) => some (acc.reverse, tc, sug, rest)
    | none => if isDotChar c then findText (c :: acc) cs else none

/-- Try the whole marker pattern at the current position (its leading `\s*`
included).  Returns the match and the rest of the line. -/
def matchAt (s : List Char) : Option (MarkerMatch × List Char) :=
  match lit openL (s.dropWhile jsWs) with
  | none => none
  | some s1 =>
    match lit ['['] (s1.dropWhile jsWs) with
    | none => none
    | some s2 =>
      match lit ['S'] s2 with
      | none => none
      | some s3 =>
        if (s3.takeWhile isDigitCh).isEmpty then none
        else
          match lit [']'] (s3.dropWhile isDigitCh) with
          | none => none
          | some s5 =>
            match lit reviewL (s5.dropWhile jsWs) with
            | none => none
            | some s6 =>
              match findText [] (s6.dropWhile jsWs) with
              | none => none
              | some (t, tc, sug, rest) =>
                some (⟨s.takeWhile jsWs ++ openL ++ s1.takeWhile jsWs ++
                        '[' :: 'S' :: s3.takeWhile isDigitCh ++ ']' :: s5.takeWhile jsWs ++
                        reviewL ++ s6.takeWhile jsWs ++ t ++ tc,
                      'S' :: s3.takeWhile isDigitCh, t, sug⟩, rest)

/-- The `exec` loop of the global regex: scan left to right, recording each
match together with the unmatched gap before it; fuel bounds the recursion.
Returns the (gap, match) pairs and the trailing unmatched gap. -/
def scanMarkers : Nat → List Char → List (List Char × MarkerMatch) × List Char
  | 0, s => ([], s)
  | fuel + 1, s =>
    match matchAt s with
    | some (m, rest) =>
      let r := scanMarkers fuel rest
      (([], m) :: r.1, r.2)
    | none =>
      match s with
      | [] => ([], [])
      | c :: cs =>
        let r := scanMarkers fuel cs
        match r.1 with
        | [] => ([], c :: r.2)
        | (g, m) :: ps => ((c :: g, m) :: ps, r.2)

/-- All marker matches on one line (`commentsOnLine` in the resolver). -/
def commentsOnLine (line : List Char) : List MarkerMatch :=
  ((scanMarkers (line.length + 1) line).1).map Prod.snd

/-- The unmatched part of a line: the gaps between matches plus the tail. -/
def lineResidual (line : List Char) : List Char :=
  let r := scanMarkers (line.length + 1) line
  (r.1.map Prod.fst).flatten ++ r.2

example :
    (commentsOnLine ("x <!-- [S1] REVIEW: wordy -->".data)).map MarkerMatch.id =
      [['S', '1']] := by decide

example :
    (commentsOnLine ("a <!-- [S1] REVIEW: too long Suggested: \"short\" --> b <!-- [S2] REVIEW: flag -->".data)).map
      (fun m => (m.id, m.suggested)) =
      [(['S', '1'], some ('s' :: 'h' :: 'o' :: 'r' :: 't' :: [])), (['S', '2'], none)] := by decide

/-! ## JS `String.replace(searchString, replaceString)`

Replaces the first occurrence of the search string; the replacement string
is interpreted through `GetSubstitution` (`$$`, `$&`, dollar-backquote,
`$'`; with a string pattern there are no capture groups, so `$1`… pass
through literally). -/

/-- ECMAScript `GetSubstitution` for a string search value: `matched` is the
matched text, `before`/`after` the parts of the subject around it. -/
def getSubst (matched before after : List Char) : List Char → List Char
  | [] => []
  | '$' :: '$' :: r => '$' :: getSubst matched before after r
  | '$' :: '&' :: r => matched ++ getSubst matched before after r
  | '$' :: c :: r =>
    if c = Char.ofNat 96 then before ++ getSubst matched before after r
    else if c = '\'' then after ++ getSubst matched before after r
    else '$' :: getSubst matched before after (c :: r)
  | c :: r => c :: getSubst matched before after r

/-- Scan for the first occurrence of `pat`; `acc` holds the (reversed) part
already scanned. -/
def replFirstAux (pat rep : List Char) : List Char → List Char → List Char
  | acc, [] =>
    if startsWithL pat [] then acc.reverse ++ getSubst pat acc.reverse [] rep
    else acc.reverse
  | acc, c :: cs =>
    if startsWithL pat (c :: cs) then
      acc.reverse ++ getSubst pat acc.reverse ((c :: cs).drop pat.length) rep ++
        (c :: cs).drop pat.length
    else replFirstAux pat rep (c :: acc) cs

/-- JS `s.replace(pat, rep)` with string arguments. -/
def replaceFirstJS (s pat rep : List Char) : List Char :=
  replFirstAux pat rep [] s

example : replaceFirstJS "abcabc".data "bc".data "X".data = "aXabc".data := by decide
example : replaceFirstJS "aba".data "a".data "$'".data = "baba".data := by decide
example : replaceFirstJS "ab".data "zz".data "X".data = "ab".data := by decide

/-! ## The resolver (`applySuggestions` in the apply-suggestions CLI) -/

/-- `acceptedIds.includes(id) || acceptedIds.includes("ALL")`. -/
def isAccepted (acceptedIds : List (List Char)) (id : List Char) : Bool :=
  acceptedIds.contains id || acceptedIds.contains ('A' :: 'L' :: 'L' :: [])

/-- Per-comment processing step: classify the id and strike the matched text
(first occurrence) from the line being rewritten. -/
def resolveStep (acceptedIds : List (List Char))
    (st : List Char × List (List Char) × List (List Char)) (m : MarkerMatch) :
    List Char × List (List Char) × List (List Char) :=
  if isAccepted acceptedIds m.id then
    (replaceFirstJS st.1 m.full [], st.2.1 ++ [m.id], st.2.2)
  else
    (replaceFirstJS st.1 m.full [], st.2.1, st.2.2 ++ [m.id])

/-- Process one line: with no comments the line passes through untouched;
otherwise every comment is classified and removed and the line trimmed at
its end. Returns (processed line, applied ids, removed ids). -/
def resolveLine (acceptedIds : List (List Char)) (line : List Char) :
    List Char × List (List Char) × List (List Char) :=
  let cs := commentsOnLine line
  if cs.isEmpty then (line, [], [])
  else
    let r := cs.foldl (resolveStep acceptedIds) (line, [], [])
    (trimEnd r.1, r.2.1, r.2.2)

/-- The resolver: split into lines, process each, re-join.  Returns
(final text, applied ids, removed ids). -/
def applySuggestions (text : List Char) (acceptedIds : List (List Char)) :
    List Char × List (List Char) × List (List Char) :=
  let res := (splitLines text).map (resolveLine acceptedIds)
  (joinLines (res.map Prod.fst),
   (res.map (fun r => r.2.1)).flatten,
   (res.map (fun r => r.2.2)).flatten)

example :
    applySuggestions
      "keep\nfix this <!-- [S1] REVIEW: a --> <!-- [S2] REVIEW: b -->\nend".data
      ["S2".data] =
      ("keep\nfix this\nend".data, [['S', '2']], [['S', '1']]) := by decide

/-- Exit status of the resolution CLI `main`: missing arguments exit with
status 1 before any processing; a thrown run-time error is caught and also
exits with status 1; otherwise the process finishes normally (status 0). -/
def mainExitCode (args : List (List Char)) (runtimeError : Bool) : Nat :=
  if args.length < 2 then 1 else if runtimeError then 1 else 0

/-! ## The corrector (`applyAutoCorrections`) -/

inductive CKind | spelling | grammar | punctuation
deriving DecidableEq, Repr

/-- An auto-applied correction (interface `Change`; the source field `type`
is called `kind` here, `from`/`to` are `fromText`/`toText`). -/
structure Change where
  line : Int
  kind : CKind
  fromText : List Char
  toText : List Char
  context : Option (List Char) := none
deriving DecidableEq, Repr

/-- Stable insertion for a descending-by-line sort: the new element goes
after every element whose line is ≥ its own, as the stable
`sort((a, b) => b.line - a.line)` does. -/
def insDescBy (lineOf : α → Int) : List α → α → List α
  | [], x => [x]
  | d :: ds, x =>
    if lineOf d ≥ lineOf x then d :: insDescBy lineOf ds x
    else x :: d :: ds

/-- Stable sort by descending line number. -/
def sortDescBy (lineOf : α → Int) (l : List α) : List α :=
  l.foldl (insDescBy lineOf) []

/-- Apply one correction: in-range lines get their first occurrence of
`fromText` replaced; out-of-range corrections change nothing. -/
def stepCorr (lines : List (List Char)) (c : Change) : List (List Char) :=
  let idx := c.line - 1
  if 0 ≤ idx ∧ idx < (lines.length : Int) then
    updateAt idx.toNat (fun l => replaceFirstJS l c.fromText c.toText) lines
  else lines

/-- The corrector: sort descending by line, then apply each correction. -/
def applyAutoCorrections (text : List Char) (corrections : List Change) : List Char :=
  joinLines ((sortDescBy Change.line corrections).foldl stepCorr (splitLines text))

example :
    applyAutoCorrections "teh cat\nsat".data
      [⟨1, .spelling, "teh".data, "the".data, none⟩] = "the cat\nsat".data := by decide

/-! ## The annotator (`insertSuggestionComments`) -/

inductive SKind | style | clarity | spelling
deriving DecidableEq, Repr

/-- A reviewable suggestion (source field `type` is `kind` here). -/
structure Suggestion where
  id : List Char
  line : Int
  kind : SKind
  text : List Char
  suggested : Option (List Char)
  context : Option (List Char) := none
deriving DecidableEq, Repr

/-- The `Suggested: "..."` clause; present only when `suggested` is truthy
(non-null and non-empty). -/
def sugClause : Option (List Char) → List Char
  | some q => if q.isEmpty then [] else ' ' :: sugL ++ ' ' :: '\"' :: q ++ ['\"']
  | none => []

/-- The marker wire format built by the annotator:
`<!-- [id] REVIEW: text Suggested: "q" -->` with the clause optional. -/
def encodeMarker (s : Suggestion) : List Char :=
  openL ++ ' ' :: '[' :: s.id ++ ']' :: ' ' :: reviewL ++ ' ' :: s.text ++
    sugClause s.suggested ++ ' ' :: arrowL

example : encodeMarker ⟨"S1".data, 3, .style, "wordy".data, some "short".data, none⟩ =
    "<!-- [S1] REVIEW: wordy Suggested: \"short\" -->".data := by decide

/-- Append one suggestion's marker to the end of its line (skipped when the
line is out of range). -/
def stepSug (lines : List (List Char)) (s : Suggestion) : List (List Char) :=
  let idx := s.line - 1
  if 0 ≤ idx ∧ idx < (lines.length : Int) then
    updateAt idx.toNat (fun l => l ++ ' ' :: encodeMarker s) lines
  else lines

/-- The annotator: sort descending by line, then append each marker. -/
def insertSuggestionComments (text : List Char) (sugs : List Suggestion) : List Char :=
  joinLines ((sortDescBy Suggestion.line sugs).foldl stepSug (splitLines text))

/-! ## The chunker (`estimateTokens`, `chunkText`) -/

/-- `Math.ceil(text.length / 4)`. -/
def estimateTokens (text : List Char) : Nat :=
  (text.length + 3) / 4

/-- The accumulation loop of `chunkText`: flush the current chunk when the
next line would push the running per-line token sum over the budget. -/
def chunkLoop (maxTokens : Nat) : List (List Char) → List (List Char) → Nat → List (List Char)
  | [], cur, _ => if cur.isEmpty then [] else [joinLines cur]
  | l :: ls, cur, tok =>
    let lt := estimateTokens l
    if tok + lt > maxTokens ∧ ¬cur.isEmpty then
      joinLines cur :: chunkLoop maxTokens ls [l] lt
    else
      chunkLoop maxTokens ls (cur ++ [l]) (tok + lt)

/-- `chunkText`: texts within budget stay whole; otherwise split on line
boundaries, greedily. -/
def chunkText (text : List Char) (maxTokens : Nat := 6000) : List (List Char) :=
  if estimateTokens text ≤ maxTokens then [text]
  else chunkLoop maxTokens (splitLines text) [] 0

example : chunkText "aaaaaaaa\nbbbb\ncccc".data 3 =
    ["aaaaaaaa\nbbbb".data, "cccc".data] := by decide

/-! ## The orchestrator's id assignment (`proofread` loop) -/

/-- `S<n>`. -/
def sId (n : Nat) : List Char := 'S' :: (Nat.repr n).data

/-- Assign ids `S n, S (n+1), …` to the suggestions of one chunk. -/
def numberFrom : Nat → List Suggestion → List Suggestion
  | _, [] => []
  | n, s :: ss => { s with id := sId n } :: numberFrom (n + 1) ss

/-- The orchestrator's counter threading across chunks. -/
def assignIdsFrom : Nat → List (List Suggestion) → List Suggestion
  | _, [] => []
  | n, ck :: cks => numberFrom n ck ++ assignIdsFrom (n + ck.length) cks

/-- Assign `S1, S2, …` across all chunks in processing order, exactly as the
`proofread` loop's `suggestionCounter` does. -/
def assignIds (chunkSuggestions : List (List Suggestion)) : List Suggestion :=
  assignIdsFrom 1 chunkSuggestions

/-! ## Basic lemmas: prefixes, literals, lines -/

theorem startsWithL_append_self (p r : List Char) : startsWithL p (p ++ r) = true := by
  induction p with
  | nil => rfl
  | cons c cs ih => simp [startsWithL, ih]

theorem eq_append_of_startsWithL {p s : List Char} (h : startsWithL p s = true) :
    s = p ++ s.drop p.length := by
  induction p generalizing s with
  | nil => simp
  | cons c cs ih =>
    cases s with
    | nil => simp [startsWithL] at h
    | cons d ds =>
      simp only [startsWithL, Bool.and_eq_true, beq_iff_eq] at h
      obtain ⟨rfl, h⟩ := h
      simpa using ih h

theorem lit_self (w r : List Char) : lit w (w ++ r) = some r := by
  simp [lit, startsWithL_append_self]

theorem lit_decomp {w s r : List Char} (h : lit w s = some r) : s = w ++ r := by
  unfold lit at h
  split at h
  · next hs =>
    obtain rfl : s.drop w.length = r := by simpa using h
    exact eq_append_of_startsWithL hs
  · simp at h

theorem lit_isSome_starts {w s : List Char} (h : (lit w s).isSome) :
    startsWithL w s = true := by
  unfold lit at h
  split at h
  · assumption
  · simp at h

theorem splitLines_ne_nil (s : List Char) : splitLines s ≠ [] := by
  cases s with
  | nil => simp [splitLines]
  | cons c r =>
    by_cases h : c = '\n'
    · simp [splitLines, h]
    · simp only [splitLines, if_neg h]
      rcases hr : splitLines r with _ | ⟨l, ls⟩ <;> simp

theorem joinLines_splitLines (s : List Char) : joinLines (splitLines s) = s := by
  induction s with
  | nil => rfl
  | cons c r ih =>
    by_cases h : c = '\n'
    · subst h
      simp only [splitLines, if_pos rfl]
      rcases hr : splitLines r with _ | ⟨l, ls⟩
      · exact absurd hr (splitLines_ne_nil r)
      · rw [hr] at ih; simpa [joinLines] using ih
    · simp only [splitLines, if_neg h]
      rcases hr : splitLines r with _ | ⟨l, ls⟩
      · exact absurd hr (splitLines_ne_nil r)
      · rw [hr] at ih
        cases ls with
        | nil => simpa [joinLines] using ih
        | cons l' ls' => simpa [joinLines] using ih

theorem splitLines_no_nl {s : List Char} :
    ∀ l ∈ splitLines s, '\n' ∉ l := by
  induction s with
  | nil => simp [splitLines]
  | cons c r ih =>
    by_cases h : c = '\n'
    · subst h
      simp only [splitLines, if_pos rfl]
      intro l hl
      rcases List.mem_cons.mp hl with rfl | hl
      · simp
      · exact ih l hl
    · simp only [splitLines, if_neg h]
      rcases hr : splitLines r with _ | ⟨l0, ls⟩
      · exact absurd hr (splitLines_ne_nil r)
      · rw [hr] at ih
        intro l hl
        rcases List.mem_cons.mp hl with rfl | hl
        · intro hc
          rcases List.mem_cons.mp hc with hc | hc
          · exact h hc.symm
          · exact ih l0 (by simp) hc
        · exact ih l (by simp [hl])

theorem splitLines_append_nl {a b : List Char} (ha : '\n' ∉ a) :
    splitLines (a ++ '\n' :: b) = a :: splitLines b := by
  induction a with
  | nil => simp [splitLines]
  | cons c cs ih =>
    have hc : c ≠ '\n' := fun h => ha (by simp [h])
    have ha' : '\n' ∉ cs := fun h => ha (by simp [h])
    rw [show (c :: cs) ++ '\n' :: b = c :: (cs ++ '\n' :: b) from rfl]
    simp only [splitLines, if_neg hc, ih ha']

theorem splitLines_joinLines {ls : List (List Char)} (hne : ls ≠ [])
    (hnl : ∀ l ∈ ls, '\n' ∉ l) : splitLines (joinLines ls) = ls := by
  induction ls with
  | nil => exact absurd rfl hne
  | cons l rest ih =>
    cases rest with
    | nil =>
      simp only [joinLines]
      have hl : '\n' ∉ l := hnl l (by simp)
      clear ih hne hnl
      induction l with
      | nil => rfl
      | cons c cs ihc =>
        have hc : c ≠ '\n' := fun h => hl (by simp [h])
        have hcs : '\n' ∉ cs := fun h => hl (by simp [h])
        simp only [splitLines, if_neg hc, ihc hcs]
    | cons l' rest' =>
      have hl : '\n' ∉ l := hnl l (by simp)
      rw [show joinLines (l :: l' :: rest') = l ++ '\n' :: joinLines (l' :: rest') from rfl,
        splitLines_append_nl hl]
      rw [ih (by simp) (fun x hx => hnl x (by simp [hx]))]

theorem joinLines_cons_ne (l : List Char) {ls : List (List Char)} (h : ls ≠ []) :
    joinLines (l :: ls) = l ++ '\n' :: joinLines ls := by
  cases ls with
  | nil => exact absurd rfl h
  | cons a as => rfl

theorem joinLines_append {a b : List (List Char)} (ha : a ≠ []) (hb : b ≠ []) :
    joinLines (a ++ b) = joinLines a ++ '\n' :: joinLines b := by
  induction a with
  | nil => exact absurd rfl ha
  | cons l rest ih =>
    rw [show (l :: rest) ++ b = l :: (rest ++ b) from rfl]
    cases rest with
    | nil => simp [joinLines_cons_ne l hb, joinLines]
    | cons l' rest' =>
      rw [joinLines_cons_ne l (by simp), ih (by simp),
        joinLines_cons_ne l (show l' :: rest' ≠ [] by simp)]
      simp

theorem takeWhile_append_all {p : Char → Bool} {a : List Char} (b : List Char)
    (ha : ∀ c ∈ a, p c = true) :
    (a ++ b).takeWhile p = a ++ b.takeWhile p := by
  induction a with
  | nil => simp
  | cons c cs ih =>
    have := ha c (by simp)
    simp [List.takeWhile_cons, this, ih (fun x hx => ha x (by simp [hx]))]

theorem dropWhile_append_all {p : Char → Bool} {a : List Char} (b : List Char)
    (ha : ∀ c ∈ a, p c = true) :
    (a ++ b).dropWhile p = b.dropWhile p := by
  induction a with
  | nil => simp
  | cons c cs ih =>
    have := ha c (by simp)
    simp [List.dropWhile_cons, this, ih (fun x hx => ha x (by simp [hx]))]

theorem dropWhile_append_of_ne_nil {p : Char → Bool} {a : List Char} (b : List Char)
    (ha : a.dropWhile p ≠ []) :
    (a ++ b).dropWhile p = a.dropWhile p ++ b := by
  induction a with
  | nil => simp at ha
  | cons c cs ih =>
    by_cases hc : p c
    · rw [List.dropWhile_cons_of_pos hc] at ha
      simp [List.dropWhile_cons, hc, ih ha]
    · simp [List.dropWhile_cons, hc] at ha ⊢

theorem updateAt_length (i : Nat) (f : List Char → List Char) (l : List (List Char)) :
    (updateAt i f l).length = l.length := by
  induction l generalizing i with
  | nil => cases i <;> rfl
  | cons x xs ih =>
    cases i with
    | zero => simp [updateAt]
    | succ j => simp [updateAt, ih]

theorem updateAt_get?_ne (i j : Nat) (f : List Char → List Char) (l : List (List Char))
    (h : i ≠ j) : (updateAt i f l).get? j = l.get? j := by
  induction l generalizing i j with
  | nil => cases i <;> rfl
  | cons x xs ih =>
    cases i with
    | zero =>
      cases j with
      | zero => exact absurd rfl h
      | succ j' => simp [updateAt]
    | succ i' =>
      cases j with
      | zero => simp [updateAt]
      | succ j' => simpa [updateAt] using ih i' j' (by omega)

theorem updateAt_get?_eq (i : Nat) (f : List Char → List Char) (l : List (List Char)) :
    (updateAt i f l).get? i = (l.get? i).map f := by
  induction l generalizing i with
  | nil => cases i <;> rfl
  | cons x xs ih =>
    cases i with
    | zero => simp [updateAt]
    | succ i' => simpa [updateAt] using ih i'

theorem updateAt_eq_self {i : Nat} {f : List Char → List Char} {l : List (List Char)}
    (h : ∀ x, l.get? i = some x → f x = x) : updateAt i f l = l := by
  induction l generalizing i with
  | nil => cases i <;> rfl
  | cons x xs ih =>
    cases i with
    | zero => simp [updateAt, h x (by simp)]
    | succ i' =>
      simp only [updateAt, List.cons.injEq, true_and]
      exact ih (by intro y hy; exact h y (by simpa using hy))

/-! ## Structural lemmas about the marker matcher -/

theorem lit_drop_decomp {p : Char → Bool} {w s r : List Char}
    (h : lit w (s.dropWhile p) = some r) : s = s.takeWhile p ++ (w ++ r) := by
  conv_lhs => rw [← List.takeWhile_append_dropWhile (p := p) (l := s), lit_decomp h]

theorem matchTailSug_decomp {s tc rest : List Char} {sug : Option (List Char)}
    (h : matchTailSug s = some (tc, sug, rest)) : s = tc ++ rest := by
  rcases h1 : lit sugL (s.dropWhile jsWs) with _ | s2
  · simp [matchTailSug, h1] at h
  rcases h2 : lit ['\"'] (s2.dropWhile jsWs) with _ | s4
  · simp [matchTailSug, h1, h2] at h
  rcases h3 : lit ['\"'] (s4.dropWhile (fun c => c != '\"')) with _ | s6
  · simp [matchTailSug, h1, h2, h3] at h
  rcases h4 : lit arrowL (s6.dropWhile jsWs) with _ | s8
  · simp [matchTailSug, h1, h2, h3, h4] at h
  simp only [matchTailSug, h1, h2, h3, h4, Option.some.injEq, Prod.mk.injEq] at h
  obtain ⟨rfl, -, rfl⟩ := h
  conv_lhs => rw [lit_drop_decomp h1, lit_drop_decomp h2, lit_drop_decomp h3,
    lit_drop_decomp h4]
  simp

theorem matchTailEnd_decomp {s tc rest : List Char} {sug : Option (List Char)}
    (h : matchTailEnd s = some (tc, sug, rest)) : s = tc ++ rest := by
  rcases h1 : lit arrowL (s.dropWhile jsWs) with _ | s2
  · simp [matchTailEnd, h1] at h
  simp only [matchTailEnd, h1, Option.some.injEq, Prod.mk.injEq] at h
  obtain ⟨rfl, -, rfl⟩ := h
  conv_lhs => rw [lit_drop_decomp h1]
  simp

theorem matchTail_decomp {s tc rest : List Char} {sug : Option (List Char)}
    (h : matchTail s = some (tc, sug, rest)) : s = tc ++ rest := by
  unfold matchTail at h
  rcases h1 : matchTailSug s with _ | r
  · rw [h1] at h; exact matchTailEnd_decomp h
  · rw [h1] at h
    obtain rfl : r = (tc, sug, rest) := by simpa using h
    exact matchTailSug_decomp h1

theorem findText_nil (acc : List Char) : findText acc [] = none := rfl

theorem findText_cons (acc : List Char) (c : Char) (cs : List Char) :
    findText acc (c :: cs) =
      match matchTail (c :: cs) with
      | some (tc, sug, rest) => some (acc.reverse, tc, sug, rest)
      | none => if isDotChar c then findText (c :: acc) cs else none := rfl

theorem findText_decomp {acc s t tc rest : List Char} {sug : Option (List Char)}
    (h : findText acc s = some (t, tc, sug, rest)) :
    acc.reverse ++ s = t ++ (tc ++ rest) := by
  induction s generalizing acc with
  | nil => rw [findText_nil] at h; exact absurd h (by simp)
  | cons c cs ih =>
    rw [findText_cons] at h
    rcases h1 : matchTail (c :: cs) with _ | ⟨tc2, sug2, rest2⟩
    · rw [h1] at h
      by_cases hd : isDotChar c
      · rw [if_pos hd] at h
        have := ih h
        simpa using this
      · rw [if_neg hd] at h; exact absurd h (by simp)
    · rw [h1] at h
      simp only [Option.some.injEq, Prod.mk.injEq] at h
      obtain ⟨rfl, rfl, -, rfl⟩ := h
      rw [matchTail_decomp h1]

theorem matchAt_decomp {s rest : List Char} {m : MarkerMatch}
    (h : matchAt s = some (m, rest)) : s = m.full ++ rest := by
  rcases h1 : lit openL (s.dropWhile jsWs) with _ | s1
  · simp [matchAt, h1] at h
  rcases h2 : lit ['['] (s1.dropWhile jsWs) with _ | s2
  · simp [matchAt, h1, h2] at h
  rcases h3 : lit ['S'] s2 with _ | s3
  · simp [matchAt, h1, h2, h3] at h
  by_cases hds : (s3.takeWhile isDigitCh).isEmpty
  · simp [matchAt, h1, h2, h3, hds] at h
  rcases h4 : lit [']'] (s3.dropWhile isDigitCh) with _ | s5
  · simp [matchAt, h1, h2, h3, hds, h4] at h
  rcases h5 : lit reviewL (s5.dropWhile jsWs) with _ | s6
  · simp [matchAt, h1, h2, h3, hds, h4, h5] at h
  rcases h6 : findText [] (s6.dropWhile jsWs) with _ | ⟨t, tc, sug, rest2⟩
  · simp [matchAt, h1, h2, h3, hds, h4, h5, h6] at h
  simp only [matchAt, h1, h2, h3, hds, h4, h5, h6, if_neg, Bool.false_eq_true,
    Option.some.injEq, Prod.mk.injEq] at h
  obtain ⟨rfl, rfl⟩ := h
  have e6 : s6.dropWhile jsWs = t ++ (tc ++ rest) := by
    have := findText_decomp h6; simpa using this
  have e6' : s6 = s6.takeWhile jsWs ++ (t ++ (tc ++ rest)) := by
    conv_lhs => rw [← List.takeWhile_append_dropWhile (p := jsWs) (l := s6), e6]
  conv_lhs => rw [lit_drop_decomp h1, lit_drop_decomp h2, lit_decomp h3,
    ← List.takeWhile_append_dropWhile (p := isDigitCh) (l := s3), lit_decomp h4,
    lit_drop_decomp h5, e6']
  simp

theorem matchAt_shape {s rest : List Char} {m : MarkerMatch}
    (h : matchAt s = some (m, rest)) :
    ∃ w t', (∀ c ∈ w, jsWs c = true) ∧ m.full = w ++ '<' :: t' := by
  rcases h1 : lit openL (s.dropWhile jsWs) with _ | s1
  · simp [matchAt, h1] at h
  rcases h2 : lit ['['] (s1.dropWhile jsWs) with _ | s2
  · simp [matchAt, h1, h2] at h
  rcases h3 : lit ['S'] s2 with _ | s3
  · simp [matchAt, h1, h2, h3] at h
  by_cases hds : (s3.takeWhile isDigitCh).isEmpty
  · simp [matchAt, h1, h2, h3, hds] at h
  rcases h4 : lit [']'] (s3.dropWhile isDigitCh) with _ | s5
  · simp [matchAt, h1, h2, h3, hds, h4] at h
  rcases h5 : lit reviewL (s5.dropWhile jsWs) with _ | s6
  · simp [matchAt, h1, h2, h3, hds, h4, h5] at h
  rcases h6 : findText [] (s6.dropWhile jsWs) with _ | ⟨t, tc, sug, rest2⟩
  · simp [matchAt, h1, h2, h3, hds, h4, h5, h6] at h
  simp only [matchAt, h1, h2, h3, hds, h4, h5, h6, if_neg, Bool.false_eq_true,
    Option.some.injEq, Prod.mk.injEq] at h
  obtain ⟨rfl, rfl⟩ := h
  refine ⟨s.takeWhile jsWs,
    '!' :: '-' :: '-' :: (s1.takeWhile jsWs ++ '[' :: 'S' :: s3.takeWhile isDigitCh ++
      ']' :: s5.takeWhile jsWs ++ reviewL ++ s6.takeWhile jsWs ++ t ++ tc),
    fun c hc => List.mem_takeWhile_imp hc, ?_⟩
  simp [openL]

theorem matchAt_none_of_no_lt {s : List Char} (h : ∀ c ∈ s, c ≠ '<') :
    matchAt s = none := by
  have hlit : lit openL (s.dropWhile jsWs) = none := by
    unfold lit
    rcases hd : s.dropWhile jsWs with _ | ⟨c, cs⟩
    · simp [startsWithL, openL]
    · have hc : c ∈ s := by
        have : c ∈ s.dropWhile jsWs := by rw [hd]; simp
        exact (List.dropWhile_sublist jsWs).subset this
      have : c ≠ '<' := h c hc
      simp [startsWithL, openL, this, Ne.symm this]
  simp [matchAt, hlit]

theorem scanMarkers_zero (s : List Char) : scanMarkers 0 s = ([], s) := rfl

theorem scanMarkers_succ (fuel : Nat) (s : List Char) :
    scanMarkers (fuel + 1) s =
      match matchAt s with
      | some (m, rest) => (([], m) :: (scanMarkers fuel rest).1, (scanMarkers fuel rest).2)
      | none =>
        match s with
        | [] => ([], [])
        | c :: cs =>
          match (scanMarkers fuel cs).1 with
          | [] => ([], c :: (scanMarkers fuel cs).2)
          | (g, m) :: ps => ((c :: g, m) :: ps, (scanMarkers fuel cs).2) := rfl

theorem scanMarkers_decomp (fuel : Nat) (s : List Char) :
    ((scanMarkers fuel s).1.map (fun gm => gm.1 ++ gm.2.full)).flatten ++
      (scanMarkers fuel s).2 = s := by
  induction fuel generalizing s with
  | zero => simp [scanMarkers_zero]
  | succ fuel ih =>
    rw [scanMarkers_succ]
    rcases hm : matchAt s with _ | ⟨m, rest⟩
    · rcases s with _ | ⟨c, cs⟩
      · simp
      · simp only
        rcases hr : (scanMarkers fuel cs).1 with _ | ⟨⟨g, m2⟩, ps⟩
        · have := ih cs
          rw [hr] at this
          simpa using this
        · have := ih cs
          rw [hr] at this
          simpa using this
    · simp only
      have := ih rest
      have hd := matchAt_decomp hm
      rw [hd]
      simp [this]

theorem scanMarkers_no_lt {s : List Char} (fuel : Nat) (h : ∀ c ∈ s, c ≠ '<') :
    scanMarkers fuel s = ([], s) := by
  induction fuel generalizing s with
  | zero => rfl
  | succ fuel ih =>
    rw [scanMarkers_succ, matchAt_none_of_no_lt h]
    rcases s with _ | ⟨c, cs⟩
    · rfl
    · simp only
      rw [ih (fun x hx => h x (by simp [hx]))]

theorem commentsOnLine_nil_of_no_lt {s : List Char} (h : ∀ c ∈ s, c ≠ '<') :
    commentsOnLine s = [] := by
  unfold commentsOnLine
  rw [scanMarkers_no_lt _ h]
  rfl

theorem scanMarkers_shape (fuel : Nat) (s : List Char) :
    ∀ gm ∈ (scanMarkers fuel s).1,
      ∃ w t', (∀ c ∈ w, jsWs c = true) ∧ gm.2.full = w ++ '<' :: t' := by
  induction fuel generalizing s with
  | zero => simp [scanMarkers_zero]
  | succ fuel ih =>
    rw [scanMarkers_succ]
    rcases hm : matchAt s with _ | ⟨m, rest⟩
    · rcases s with _ | ⟨c, cs⟩
      · simp
      · simp only
        rcases hr : (scanMarkers fuel cs).1 with _ | ⟨⟨g, m2⟩, ps⟩
        · simp
        · intro gm hgm
          rcases List.mem_cons.mp hgm with rfl | hgm
          · have := ih cs ⟨g, m2⟩ (by rw [hr]; simp)
            simpa using this
          · exact ih cs gm (by rw [hr]; simp [hgm])
    · intro gm hgm
      rcases List.mem_cons.mp hgm with rfl | hgm
      · simpa using matchAt_shape hm
      · exact ih rest gm hgm

/-! ## Lemmas about the JS replace model -/

theorem getSubst_rep_nil (matched before after : List Char) :
    getSubst matched before after [] = [] := rfl

theorem replFirstAux_not_found {pat : List Char} (rep : List Char) {s : List Char}
    (h : infixIn pat s = false) :
    ∀ acc, replFirstAux pat rep acc s = acc.reverse ++ s := by
  induction s with
  | nil =>
    intro acc
    have hs : startsWithL pat [] = false := by simpa [infixIn] using h
    simp [replFirstAux, hs]
  | cons c cs ih =>
    intro acc
    simp only [infixIn, Bool.or_eq_false_iff] at h
    obtain ⟨h1, h2⟩ := h
    simp only [replFirstAux, h1, Bool.false_eq_true, if_false]
    rw [ih h2]
    simp

theorem replaceFirstJS_not_found {pat s : List Char} (rep : List Char)
    (h : infixIn pat s = false) : replaceFirstJS s pat rep = s := by
  simpa [replaceFirstJS] using replFirstAux_not_found rep h []

theorem jsWs_lt_false : jsWs '<' = false := by decide

theorem not_startsWithL_shifted {t R : List Char} :
    ∀ {w G : List Char}, (∀ c ∈ w, jsWs c = true) → (∀ c ∈ G, c ≠ '<') → G ≠ [] →
    startsWithL (w ++ '<' :: t) (G ++ ((w ++ '<' :: t) ++ R)) = false := by
  intro w
  induction w with
  | nil =>
    intro G _ hG hGne
    rcases G with _ | ⟨g, G2⟩
    · exact absurd rfl hGne
    · have hg : g ≠ '<' := hG g (by simp)
      have : ('<' == g) = false := by
        simp only [beq_eq_false_iff_ne, ne_eq]
        exact fun e => hg e.symm
      simp [startsWithL, this]
  | cons a w2 ih =>
    intro G hw hG hGne
    rcases G with _ | ⟨g, G2⟩
    · exact absurd rfl hGne
    · by_cases hag : a = g
      · subst hag
        have stepEq :
            startsWithL ((a :: w2) ++ '<' :: t) ((a :: G2) ++ (((a :: w2) ++ '<' :: t) ++ R)) =
              startsWithL (w2 ++ '<' :: t) ((G2 ++ [a]) ++ ((w2 ++ '<' :: t) ++ R)) := by
          simp [startsWithL]
        rw [stepEq]
        refine ih (fun c hc => hw c (by simp [hc])) ?_ (by simp)
        intro c hc
        rcases List.mem_append.mp hc with hc | hc
        · exact hG c (by simp [hc])
        · have hca : c = a := by simpa using hc
          subst hca
          intro e
          have := hw c (by simp)
          rw [e] at this
          rw [jsWs_lt_false] at this
          exact Bool.false_ne_true this
      · have : (a == g) = false := by
          simp only [beq_eq_false_iff_ne, ne_eq]; exact hag
        simp [startsWithL, this]

theorem replFirstAux_found {pat s : List Char} (rep acc : List Char)
    (hs : startsWithL pat s = true) :
    replFirstAux pat rep acc s =
      acc.reverse ++ getSubst pat acc.reverse (s.drop pat.length) rep ++
        s.drop pat.length := by
  cases s with
  | nil => simp [replFirstAux, hs]
  | cons c cs => simp [replFirstAux, hs]

theorem replFirstAux_peel {w t R : List Char} (hw : ∀ c ∈ w, jsWs c = true) :
    ∀ (P acc : List Char), (∀ c ∈ P, c ≠ '<') →
      replFirstAux (w ++ '<' :: t) [] acc (P ++ ((w ++ '<' :: t) ++ R)) =
        acc.reverse ++ (P ++ R) := by
  intro P
  induction P with
  | nil =>
    intro acc _
    rw [List.nil_append,
      replFirstAux_found [] acc (startsWithL_append_self (w ++ '<' :: t) R),
      getSubst_rep_nil, List.drop_left]
    simp
  | cons c P2 ih =>
    intro acc hP
    have hs : startsWithL (w ++ '<' :: t) (c :: (P2 ++ ((w ++ '<' :: t) ++ R))) = false := by
      have := not_startsWithL_shifted (t := t) (R := R) (G := c :: P2) hw hP (by simp)
      simpa using this
    rw [show (c :: P2) ++ ((w ++ '<' :: t) ++ R) = c :: (P2 ++ ((w ++ '<' :: t) ++ R)) from rfl]
    simp only [replFirstAux, hs, Bool.false_eq_true, if_false]
    rw [ih (c :: acc) (fun x hx => hP x (by simp [hx]))]
    simp

theorem replaceFirstJS_strip {full R P w t : List Char}
    (hshape : full = w ++ '<' :: t) (hw : ∀ c ∈ w, jsWs c = true)
    (hP : ∀ c ∈ P, c ≠ '<') :
    replaceFirstJS (P ++ (full ++ R)) full [] = P ++ R := by
  subst hshape
  simpa [replaceFirstJS] using replFirstAux_peel hw P [] hP

theorem removal_fold {ps : List (List Char × MarkerMatch)} {t : List Char} :
    ∀ {G : List Char}, (∀ c ∈ G, c ≠ '<') →
    (∀ gm ∈ ps, ∀ c ∈ gm.1, c ≠ '<') →
    (∀ gm ∈ ps, ∃ w t', (∀ c ∈ w, jsWs c = true) ∧ gm.2.full = w ++ '<' :: t') →
    (ps.map Prod.snd).foldl (fun l m => replaceFirstJS l m.full [])
        (G ++ ((ps.map (fun gm => gm.1 ++ gm.2.full)).flatten ++ t)) =
      G ++ ((ps.map Prod.fst).flatten ++ t) := by
  induction ps with
  | nil => intro G _ _ _; simp
  | cons gm ps2 ih =>
    intro G hG hgaps hshape
    obtain ⟨g, m⟩ := gm
    obtain ⟨w, t2, hw, hfull⟩ := hshape ⟨g, m⟩ (by simp)
    have hGg : ∀ c ∈ G ++ g, c ≠ '<' := by
      intro c hc
      rcases List.mem_append.mp hc with hc | hc
      · exact hG c hc
      · exact hgaps ⟨g, m⟩ (by simp) c hc
    have shapeEq :
        G ++ (((⟨g, m⟩ :: ps2).map (fun gm => gm.1 ++ gm.2.full)).flatten ++ t) =
          (G ++ g) ++ (m.full ++ ((ps2.map (fun gm => gm.1 ++ gm.2.full)).flatten ++ t)) := by
      simp
    rw [show ((⟨g, m⟩ :: ps2).map Prod.snd) = m :: ps2.map Prod.snd from rfl,
      List.foldl_cons, shapeEq, replaceFirstJS_strip hfull hw hGg,
      ih hGg (fun x hx => hgaps x (by simp [hx])) (fun x hx => hshape x (by simp [hx]))]
    simp

/-! ## Membership preservation (processed lines keep only old characters) -/

theorem mem_replFirstAux {pat : List Char} {x : Char} :
    ∀ {acc s : List Char}, x ∈ replFirstAux pat [] acc s → x ∈ acc ∨ x ∈ s := by
  intro acc s
  induction s generalizing acc with
  | nil =>
    intro hx
    by_cases hs : startsWithL pat [] = true
    · simp only [replFirstAux, hs, if_true, getSubst_rep_nil] at hx
      left; simpa using hx
    · simp only [replFirstAux, hs, Bool.false_eq_true, if_false] at hx
      left; simpa using hx
  | cons c cs ih =>
    intro hx
    by_cases hs : startsWithL pat (c :: cs) = true
    · simp only [replFirstAux, hs, if_true, getSubst_rep_nil] at hx
      rcases List.mem_append.mp hx with hx | hx
      · left; simpa using hx
      · right
        exact (List.drop_sublist _ _).subset hx
    · simp only [replFirstAux, hs, Bool.false_eq_true, if_false] at hx
      rcases ih hx with hx | hx
      · rcases List.mem_cons.mp hx with rfl | hx
        · right; simp
        · left; exact hx
      · right; simp [hx]

theorem mem_replaceFirstJS {pat s : List Char} {x : Char}
    (hx : x ∈ replaceFirstJS s pat []) : x ∈ s := by
  rcases mem_replFirstAux hx with h | h
  · simp at h
  · exact h

theorem mem_removeFold {x : Char} :
    ∀ {cs : List MarkerMatch} {l : List Char},
      x ∈ cs.foldl (fun l m => replaceFirstJS l m.full []) l → x ∈ l := by
  intro cs
  induction cs with
  | nil => intro l h; simpa using h
  | cons m cs2 ih =>
    intro l h
    rw [List.foldl_cons] at h
    exact mem_replaceFirstJS (ih h)

theorem mem_trimEnd {s : List Char} {x : Char} (hx : x ∈ trimEnd s) : x ∈ s := by
  unfold trimEnd at hx
  have := List.mem_reverse.mp hx
  have := (List.dropWhile_sublist jsWs).subset this
  exact List.mem_reverse.mp this

/-! ## The resolver fold, characterized -/

theorem isEmpty_true_iff {α : Type} {l : List α} : l.isEmpty = true ↔ l = [] := by
  cases l <;> simp

theorem resolveFold_spec (ids : List (List Char)) (cs : List MarkerMatch) :
    ∀ l a r, cs.foldl (resolveStep ids) (l, a, r) =
      (cs.foldl (fun x m => replaceFirstJS x m.full []) l,
       a ++ (cs.filter (fun m => isAccepted ids m.id)).map MarkerMatch.id,
       r ++ (cs.filter (fun m => !isAccepted ids m.id)).map MarkerMatch.id) := by
  induction cs with
  | nil => intro l a r; simp
  | cons m cs2 ih =>
    intro l a r
    by_cases hm : isAccepted ids m.id = true
    · rw [List.foldl_cons,
        show resolveStep ids (l, a, r) m = (replaceFirstJS l m.full [], a ++ [m.id], r) by
          simp [resolveStep, hm],
        ih]
      simp [hm]
    · rw [List.foldl_cons,
        show resolveStep ids (l, a, r) m = (replaceFirstJS l m.full [], a, r ++ [m.id]) by
          simp [resolveStep, hm],
        ih]
      simp [hm]

theorem resolveLine_spec (ids : List (List Char)) (line : List Char) :
    resolveLine ids line =
      (if (commentsOnLine line).isEmpty then line
       else trimEnd ((commentsOnLine line).foldl
              (fun x m => replaceFirstJS x m.full []) line),
       ((commentsOnLine line).filter (fun m => isAccepted ids m.id)).map MarkerMatch.id,
       ((commentsOnLine line).filter (fun m => !isAccepted ids m.id)).map MarkerMatch.id) := by
  unfold resolveLine
  by_cases h : (commentsOnLine line).isEmpty
  · rw [if_pos h, if_pos h, isEmpty_true_iff.mp h]
    simp
  · rw [if_neg h, if_neg h, resolveFold_spec]
    simp

theorem resolveLine_no_comments {ids : List (List Char)} {line : List Char}
    (h : commentsOnLine line = []) : resolveLine ids line = (line, [], []) := by
  simp [resolveLine, h]

theorem resolveLine_residual {ids : List (List Char)} {line : List Char}
    (hres : ∀ c ∈ lineResidual line, c ≠ '<')
    (hne : ¬(commentsOnLine line).isEmpty = true) :
    (resolveLine ids line).1 = trimEnd (lineResidual line) := by
  rw [resolveLine_spec]
  simp only [if_neg hne]
  congr 1
  have hdecomp := scanMarkers_decomp (line.length + 1) line
  have hgaps : ∀ gm ∈ (scanMarkers (line.length + 1) line).1, ∀ c ∈ gm.1, c ≠ '<' := by
    intro gm hgm c hc
    apply hres
    unfold lineResidual
    refine List.mem_append.mpr (Or.inl ?_)
    exact List.mem_flatten.mpr ⟨gm.1, List.mem_map.mpr ⟨gm, hgm, rfl⟩, hc⟩
  have hrm := @removal_fold (scanMarkers (line.length + 1) line).1
    (scanMarkers (line.length + 1) line).2 []
    (by simp) hgaps (scanMarkers_shape (line.length + 1) line)
  rw [List.nil_append, List.nil_append, hdecomp] at hrm
  show (commentsOnLine line).foldl (fun x m => replaceFirstJS x m.full []) line =
    lineResidual line
  unfold commentsOnLine lineResidual
  exact hrm

theorem resolveLine_clean {ids : List (List Char)} {line : List Char}
    (hres : ¬(commentsOnLine line).isEmpty = true → ∀ c ∈ lineResidual line, c ≠ '<') :
    commentsOnLine (resolveLine ids line).1 = [] := by
  by_cases hne : (commentsOnLine line).isEmpty = true
  · rw [resolveLine_no_comments (isEmpty_true_iff.mp hne)]
    exact isEmpty_true_iff.mp hne
  · rw [resolveLine_residual (hres hne) hne]
    apply commentsOnLine_nil_of_no_lt
    intro c hc
    exact hres hne c (mem_trimEnd hc)

theorem resolveLine_no_nl {ids : List (List Char)} {line : List Char}
    (h : '\n' ∉ line) : '\n' ∉ (resolveLine ids line).1 := by
  rw [resolveLine_spec]
  by_cases hne : (commentsOnLine line).isEmpty
  · simpa [hne] using h
  · simp only [if_neg hne]
    intro hc
    exact h (mem_removeFold (mem_trimEnd hc))

theorem applySuggestions_fst (text : List Char) (ids : List (List Char)) :
    (applySuggestions text ids).1 =
      joinLines ((splitLines text).map (fun l => (resolveLine ids l).1)) := by
  show joinLines (((splitLines text).map (resolveLine ids)).map Prod.fst) = _
  rw [List.map_map]
  rfl

theorem splitLines_applySuggestions (text : List Char) (ids : List (List Char)) :
    splitLines (applySuggestions text ids).1 =
      (splitLines text).map (fun l => (resolveLine ids l).1) := by
  rw [applySuggestions_fst]
  apply splitLines_joinLines
  · intro hmap
    exact splitLines_ne_nil text (List.map_eq_nil_iff.mp hmap)
  · intro l hl
    obtain ⟨l0, hl0, rfl⟩ := List.mem_map.mp hl
    exact resolveLine_no_nl (splitLines_no_nl l0 hl0)

theorem flatten_filter_map {α β γ : Type} (L : List α) (f : α → List β) (p : β → Bool)
    (g : β → γ) :
    (L.map (fun l => ((f l).filter p).map g)).flatten =
      ((L.map f).flatten.filter p).map g := by
  induction L with
  | nil => simp
  | cons x xs ih => simp [ih, List.filter_append]

theorem applySuggestions_applied (text : List Char) (ids : List (List Char)) :
    (applySuggestions text ids).2.1 =
      (((splitLines text).map commentsOnLine).flatten.filter
        (fun m => isAccepted ids m.id)).map MarkerMatch.id := by
  show (((splitLines text).map (resolveLine ids)).map (fun r => r.2.1)).flatten = _
  rw [List.map_map]
  have he : ((fun r : List Char × List (List Char) × List (List Char) => r.2.1) ∘
      resolveLine ids) =
      fun l => ((commentsOnLine l).filter (fun m => isAccepted ids m.id)).map
        MarkerMatch.id := by
    funext l
    show (resolveLine ids l).2.1 = _
    rw [resolveLine_spec]
  rw [he, flatten_filter_map]

theorem applySuggestions_removed (text : List Char) (ids : List (List Char)) :
    (applySuggestions text ids).2.2 =
      (((splitLines text).map commentsOnLine).flatten.filter
        (fun m => !isAccepted ids m.id)).map MarkerMatch.id := by
  show (((splitLines text).map (resolveLine ids)).map (fun r => r.2.2)).flatten = _
  rw [List.map_map]
  have he : ((fun r : List Char × List (List Char) × List (List Char) => r.2.2) ∘
      resolveLine ids) =
      fun l => ((commentsOnLine l).filter (fun m => !isAccepted ids m.id)).map
        MarkerMatch.id := by
    funext l
    show (resolveLine ids l).2.2 = _
    rw [resolveLine_spec]
  rw [he, flatten_filter_map]

/-! ## Claim C3: untouched lines pass through byte-identical -/

/-- Claim C3: for every input document and Resolution set, any line of the
annotated document on which the resolver's marker grammar matches zero
markers appears byte-identical, at the same position, in the final
document: no trimming, no rewriting of that line. -/
theorem C3_untouched_line (text : List Char) (ids : List (List Char)) (i : Nat)
    (l : List Char) (hline : (splitLines text).get? i = some l)
    (hnone : commentsOnLine l = []) :
    (splitLines (applySuggestions text ids).1).get? i = some l := by
  rw [splitLines_applySuggestions]
  rw [List.get?_eq_getElem?, List.getElem?_map, ← List.get?_eq_getElem?, hline]
  simp [resolveLine_no_comments hnone]

theorem C3_witness :
    (splitLines "a < b  \nx <!-- [S1] REVIEW: r -->".data).get? 0 = some "a < b  ".data ∧
    commentsOnLine "a < b  ".data = [] ∧
    (splitLines (applySuggestions "a < b  \nx <!-- [S1] REVIEW: r -->".data
      ["S1".data]).1).get? 0 = some "a < b  ".data :=
  ⟨by decide, by decide,
    C3_untouched_line "a < b  \nx <!-- [S1] REVIEW: r -->".data ["S1".data] 0
      "a < b  ".data (by decide) (by decide)⟩

/-! ## Claim C2: resolver classification and marker removal -/

/-- Claim C2 counterexample: the claim asserts the final document contains
zero markers for every annotated document.  On the single-line document
`<<!-- [S1] REVIEW: a -->!-- [S2] REVIEW: b -->` the resolver matches only
the S1 marker; removing its text by literal first-occurrence replacement
splices the leading `<` onto the leftover `!-- [S2] … -->`, so the final
document consists of the well-formed marker `<!-- [S2] REVIEW: b -->`,
which was never classified: applied = [S1], removed = []. -/
theorem C2_counterexample :
    (commentsOnLine ((applySuggestions
        "<<!-- [S1] REVIEW: a -->!-- [S2] REVIEW: b -->".data
        ["S1".data, "S2".data]).1)).map MarkerMatch.id = [['S', '2']] ∧
    (applySuggestions "<<!-- [S1] REVIEW: a -->!-- [S2] REVIEW: b -->".data
        ["S1".data, "S2".data]).2.1 = [['S', '1']] ∧
    (applySuggestions "<<!-- [S1] REVIEW: a -->!-- [S2] REVIEW: b -->".data
        ["S1".data, "S2".data]).2.2 = [] := by
  decide

/-- Claim C2 (amended): each marker parsed from the document contributes its
id to exactly one of the two output lists — to applied if the id is in the
Resolution set or the set holds the ALL sentinel, otherwise to removed — and
this holds with several markers on one line, each classified independently.
The final document contains zero markers provided that on every line
carrying markers the unmatched residue (the text outside the matched
markers) contains no `<` character; without that proviso the literal
first-occurrence removal of a matched marker can splice surrounding text
into a fresh marker. -/
theorem C2_resolver_amended (text : List Char) (ids : List (List Char)) :
    (applySuggestions text ids).2.1 =
      (((splitLines text).map commentsOnLine).flatten.filter
        (fun m => isAccepted ids m.id)).map MarkerMatch.id ∧
    (applySuggestions text ids).2.2 =
      (((splitLines text).map commentsOnLine).flatten.filter
        (fun m => !isAccepted ids m.id)).map MarkerMatch.id ∧
    ((∀ l ∈ splitLines text, ¬(commentsOnLine l).isEmpty = true →
        ∀ c ∈ lineResidual l, c ≠ '<') →
      ∀ l2 ∈ splitLines (applySuggestions text ids).1, commentsOnLine l2 = []) := by
  refine ⟨applySuggestions_applied text ids, applySuggestions_removed text ids, ?_⟩
  intro hres l2 hl2
  rw [splitLines_applySuggestions] at hl2
  obtain ⟨l, hl, rfl⟩ := List.mem_map.mp hl2
  exact resolveLine_clean (hres l hl)

theorem C2_witness :
    (applySuggestions
        "alpha <!-- [S1] REVIEW: a -->\nbeta <!-- [S2] REVIEW: b --> <!-- [S3] REVIEW: c -->".data
        ["S1".data, "S3".data]).2.1 = [['S', '1'], ['S', '3']] ∧
    (applySuggestions
        "alpha <!-- [S1] REVIEW: a -->\nbeta <!-- [S2] REVIEW: b --> <!-- [S3] REVIEW: c -->".data
        ["S1".data, "S3".data]).2.2 = [['S', '2']] ∧
    commentsOnLine "alpha".data = [] :=
  ⟨((C2_resolver_amended
      "alpha <!-- [S1] REVIEW: a -->\nbeta <!-- [S2] REVIEW: b --> <!-- [S3] REVIEW: c -->".data
      ["S1".data, "S3".data]).1).trans (by decide),
   ((C2_resolver_amended
      "alpha <!-- [S1] REVIEW: a -->\nbeta <!-- [S2] REVIEW: b --> <!-- [S3] REVIEW: c -->".data
      ["S1".data, "S3".data]).2.1).trans (by decide),
   (C2_resolver_amended
      "alpha <!-- [S1] REVIEW: a -->\nbeta <!-- [S2] REVIEW: b --> <!-- [S3] REVIEW: c -->".data
      ["S1".data, "S3".data]).2.2 (by decide) "alpha".data (by decide)⟩

/-! ## Claim C9: CLI exit statuses -/

/-- Claim C9 counterexample: the claim asserts the usage-error exit status is
distinct from the run-time failure exit status, but the CLI exits with
status 1 in both cases: `mainExitCode` on one missing argument equals
`mainExitCode` on a run-time failure. -/
theorem C9_counterexample :
    mainExitCode [['d']] false = mainExitCode [['d'], ['S', '1']] true ∧
    mainExitCode [['d']] false = 1 := by
  decide

/-- Claim C9 (amended): a usage error (fewer than two arguments) and a
run-time processing failure both terminate with the same failure exit
status 1; that status is distinct from the success status 0, but the two
failure modes are not distinguished from each other. -/
theorem C9_exit_codes_amended (args args2 : List (List Char)) (rt : Bool)
    (h1 : args.length < 2) (h2 : 2 ≤ args2.length) :
    mainExitCode args rt = 1 ∧ mainExitCode args2 true = 1 ∧
    mainExitCode args2 false = 0 := by
  unfold mainExitCode
  refine ⟨by rw [if_pos h1], ?_, ?_⟩
  · rw [if_neg (by omega)]; rfl
  · rw [if_neg (by omega)]; rfl

theorem C9_witness :
    mainExitCode [['d']] true = 1 ∧ mainExitCode [['d'], ['a']] true = 1 ∧
    mainExitCode [['d'], ['a']] false = 0 :=
  C9_exit_codes_amended [['d']] [['d'], ['a']] true (by decide) (by decide)

/-! ## Claim C8: a run with zero findings is the identity -/

/-- Claim C8: running the corrector with no corrections and then the
annotator with no suggestions returns the document byte-for-byte. -/
theorem C8_zero_findings_identity (text : List Char) :
    applyAutoCorrections text [] = text ∧ insertSuggestionComments text [] = text := by
  constructor
  · show joinLines ((sortDescBy Change.line []).foldl stepCorr (splitLines text)) = text
    rw [show sortDescBy Change.line ([] : List Change) = [] from rfl, List.foldl_nil,
      joinLines_splitLines]
  · show joinLines ((sortDescBy Suggestion.line []).foldl stepSug (splitLines text)) = text
    rw [show sortDescBy Suggestion.line ([] : List Suggestion) = [] from rfl, List.foldl_nil,
      joinLines_splitLines]

/-! ## Claim C6: deterministic sequential id assignment -/

theorem numberFrom_append (n : Nat) (a b : List Suggestion) :
    numberFrom n (a ++ b) = numberFrom n a ++ numberFrom (n + a.length) b := by
  induction a generalizing n with
  | nil => simp [numberFrom]
  | cons x xs ih =>
    rw [List.cons_append]
    show _ :: numberFrom (n + 1) (xs ++ b) = _
    rw [ih]
    simp only [numberFrom, List.length_cons, List.cons_append, List.cons.injEq, true_and]
    congr 2
    omega

theorem assignIdsFrom_join (n : Nat) (ls : List (List Suggestion)) :
    assignIdsFrom n ls = numberFrom n ls.flatten := by
  induction ls generalizing n with
  | nil => rfl
  | cons ck cks ih =>
    show numberFrom n ck ++ assignIdsFrom (n + ck.length) cks = _
    rw [ih, List.flatten_cons, numberFrom_append]

theorem numberFrom_map_id (n : Nat) (ss : List Suggestion) :
    (numberFrom n ss).map Suggestion.id =
      (List.range ss.length).map (fun i => sId (n + i)) := by
  induction ss generalizing n with
  | nil => rfl
  | cons x xs ih =>
    show sId n :: (numberFrom (n + 1) xs).map Suggestion.id = _
    rw [ih, List.length_cons, List.range_succ_eq_map]
    simp only [List.map_cons, List.map_map, Nat.add_zero, List.cons.injEq, true_and]
    apply List.map_congr_left
    intro i _
    simp only [Function.comp_apply]
    congr 1
    omega

theorem numberFrom_fields (n : Nat) (ss : List Suggestion) :
    (numberFrom n ss).map (fun s => (s.line, s.kind, s.text, s.suggested, s.context)) =
      ss.map (fun s => (s.line, s.kind, s.text, s.suggested, s.context)) := by
  induction ss generalizing n with
  | nil => rfl
  | cons x xs ih =>
    show (_, _, _, _, _) :: _ = _
    rw [ih]
    rfl

/-- Claim C6: for a fixed sequence of per-chunk checker outputs, the
orchestrator assigns ids `S1, S2, …` to the suggestions in discovery order
across chunks (position `i` of the concatenation gets id `S(1+i)`), leaving
every other field unchanged; being a function of its input, the assignment
is the same on every repetition. -/
theorem C6_id_assignment (chunkSuggestions : List (List Suggestion)) :
    assignIds chunkSuggestions = numberFrom 1 chunkSuggestions.flatten ∧
    (assignIds chunkSuggestions).map Suggestion.id =
      (List.range chunkSuggestions.flatten.length).map (fun i => sId (1 + i)) ∧
    (assignIds chunkSuggestions).map
        (fun s => (s.line, s.kind, s.text, s.suggested, s.context)) =
      chunkSuggestions.flatten.map
        (fun s => (s.line, s.kind, s.text, s.suggested, s.context)) := by
  refine ⟨assignIdsFrom_join 1 chunkSuggestions, ?_, ?_⟩
  · rw [show assignIds chunkSuggestions = numberFrom 1 chunkSuggestions.flatten from
      assignIdsFrom_join 1 chunkSuggestions, numberFrom_map_id]
  · rw [show assignIds chunkSuggestions = numberFrom 1 chunkSuggestions.flatten from
      assignIdsFrom_join 1 chunkSuggestions, numberFrom_fields]

/-! ## Claim C4: chunk reconstruction and line bookkeeping -/

theorem chunkLoop_nil (maxTokens : Nat) (cur : List (List Char)) (tok : Nat) :
    chunkLoop maxTokens [] cur tok = if cur.isEmpty then [] else [joinLines cur] := rfl

theorem chunkLoop_cons (maxTokens : Nat) (l : List Char) (ls cur : List (List Char))
    (tok : Nat) :
    chunkLoop maxTokens (l :: ls) cur tok =
      if tok + estimateTokens l > maxTokens ∧ ¬cur.isEmpty then
        joinLines cur :: chunkLoop maxTokens ls [l] (estimateTokens l)
      else chunkLoop maxTokens ls (cur ++ [l]) (tok + estimateTokens l) := rfl

theorem chunkLoop_flatten (maxTokens : Nat) :
    ∀ (ls cur : List (List Char)) (tok : Nat),
      (∀ l ∈ cur, '\n' ∉ l) → (∀ l ∈ ls, '\n' ∉ l) →
      ((chunkLoop maxTokens ls cur tok).map splitLines).flatten = cur ++ ls := by
  intro ls
  induction ls with
  | nil =>
    intro cur tok hc _
    rw [chunkLoop_nil]
    by_cases h : cur.isEmpty
    · rw [if_pos h, isEmpty_true_iff.mp h]
      rfl
    · rw [if_neg h]
      have : cur ≠ [] := fun e => h (by simp [e])
      simp [splitLines_joinLines this hc]
  | cons ln ls2 ih =>
    intro cur tok hc hl
    rw [chunkLoop_cons]
    by_cases hg : tok + estimateTokens ln > maxTokens ∧ ¬cur.isEmpty
    · have hcur : cur ≠ [] := fun e => hg.2 (by simp [e])
      rw [if_pos hg, List.map_cons, List.flatten_cons, splitLines_joinLines hcur hc,
        ih [ln] (estimateTokens ln)
          (by
            intro x hx
            simp only [List.mem_singleton] at hx
            subst hx
            exact hl x (by simp))
          (fun x hx => hl x (by simp [hx]))]
      simp
    · rw [if_neg hg,
        ih (cur ++ [ln]) (tok + estimateTokens ln)
          (by
            intro x hx
            rcases List.mem_append.mp hx with hx | hx
            · exact hc x hx
            · have hxl : x = ln := by simpa using hx
              subst hxl
              exact hl x (by simp))
          (fun x hx => hl x (by simp [hx]))]
      simp

theorem flatten_ne_nil {gs : List (List (List Char))} (hne : gs ≠ [])
    (h : ∀ g ∈ gs, g ≠ []) : gs.flatten ≠ [] := by
  rcases gs with _ | ⟨g, gs2⟩
  · exact absurd rfl hne
  · have : g ≠ [] := h g (by simp)
    rcases g with _ | ⟨x, xs⟩
    · exact absurd rfl this
    · simp

theorem joinLines_nested (gs : List (List (List Char))) (h : ∀ g ∈ gs, g ≠ []) :
    joinLines (gs.map joinLines) = joinLines gs.flatten := by
  induction gs with
  | nil => rfl
  | cons g gs2 ih =>
    rcases gs2 with _ | ⟨g2, gs3⟩
    · simp [joinLines]
    · have hg : g ≠ [] := h g (by simp)
      have hflat : (g2 :: gs3).flatten ≠ [] :=
        flatten_ne_nil (by simp) (fun x hx => h x (by simp [hx]))
      rw [List.map_cons, joinLines_cons_ne _ (by simp),
        ih (fun x hx => h x (by simp [hx])),
        show (g :: g2 :: gs3).flatten = g ++ (g2 :: gs3).flatten from rfl,
        joinLines_append hg hflat]

theorem chunkText_flatten (text : List Char) (maxTokens : Nat) :
    ((chunkText text maxTokens).map splitLines).flatten = splitLines text := by
  unfold chunkText
  by_cases h : estimateTokens text ≤ maxTokens
  · rw [if_pos h]; simp
  · rw [if_neg h, chunkLoop_flatten maxTokens (splitLines text) [] 0 (by simp)
      (fun l hl => splitLines_no_nl l hl)]
    simp

theorem chunkText_join (text : List Char) (maxTokens : Nat) :
    joinLines (chunkText text maxTokens) = text := by
  have h2 := joinLines_nested ((chunkText text maxTokens).map splitLines)
    (by
      intro g hg
      obtain ⟨c, _, rfl⟩ := List.mem_map.mp hg
      exact splitLines_ne_nil c)
  rw [List.map_map] at h2
  have h1 : (chunkText text maxTokens).map (joinLines ∘ splitLines) =
      (chunkText text maxTokens).map id :=
    List.map_congr_left (fun c _ => joinLines_splitLines c)
  rw [h1, List.map_id, chunkText_flatten, joinLines_splitLines] at h2
  exact h2

theorem flatten_drop_sum {α : Type} (L : List (List α)) (i : Nat) (h : i < L.length) :
    L.flatten.drop (((L.take i).map List.length).sum) =
      L.get ⟨i, h⟩ ++ (L.drop (i + 1)).flatten := by
  induction L generalizing i with
  | nil => simp at h
  | cons x xs ih =>
    cases i with
    | zero => simp
    | succ i2 =>
      have h2 : i2 < xs.length := by simpa using h
      rw [List.take_succ_cons, List.map_cons, List.sum_cons, List.flatten_cons,
        List.drop_append, ih i2 h2]
      rfl

/-- Claim C4: the chunker yields a finite ordered sequence of chunks whose
newline-join reconstructs the text exactly, whose line lists concatenate to
the document's line list (no line is split across a boundary), and whose
chunk `i` starts at absolute line `1 + Σ(line counts of earlier chunks)`:
dropping that many lines from the document leaves exactly chunk `i`'s lines
followed by the later chunks' lines. -/
theorem C4_chunk_reconstruction (text : List Char) (maxTokens : Nat) :
    joinLines (chunkText text maxTokens) = text ∧
    ((chunkText text maxTokens).map splitLines).flatten = splitLines text ∧
    ∀ i (h : i < (chunkText text maxTokens).length),
      (splitLines text).drop
          ((((chunkText text maxTokens).take i).map
            (fun c => (splitLines c).length)).sum) =
        splitLines ((chunkText text maxTokens).get ⟨i, h⟩) ++
          (((chunkText text maxTokens).drop (i + 1)).map splitLines).flatten := by
  refine ⟨chunkText_join text maxTokens, chunkText_flatten text maxTokens, ?_⟩
  intro i h
  have h2 : i < ((chunkText text maxTokens).map splitLines).length := by simpa using h
  have := flatten_drop_sum ((chunkText text maxTokens).map splitLines) i h2
  rw [chunkText_flatten] at this
  rw [← List.map_take, List.map_map] at this
  rw [show ((chunkText text maxTokens).take i).map (List.length ∘ splitLines) =
      ((chunkText text maxTokens).take i).map (fun c => (splitLines c).length) from rfl] at this
  rw [this, List.get_eq_getElem, List.get_eq_getElem, List.getElem_map, ← List.map_drop]

theorem C4_witness :
    joinLines (chunkText "aaaaaaaa\nbbbb\ncccc".data 3) = "aaaaaaaa\nbbbb\ncccc".data ∧
    (splitLines "aaaaaaaa\nbbbb\ncccc".data).drop
        ((((chunkText "aaaaaaaa\nbbbb\ncccc".data 3).take 1).map
          (fun c => (splitLines c).length)).sum) =
      splitLines ((chunkText "aaaaaaaa\nbbbb\ncccc".data 3).get ⟨1, by decide⟩) ++
        (((chunkText "aaaaaaaa\nbbbb\ncccc".data 3).drop 2).map splitLines).flatten :=
  ⟨(C4_chunk_reconstruction "aaaaaaaa\nbbbb\ncccc".data 3).1,
   (C4_chunk_reconstruction "aaaaaaaa\nbbbb\ncccc".data 3).2.2 1 (by decide)⟩

/-! ## Claim C5: chunk size budget -/

/-- Claim C5 counterexample: the claim bounds the token estimate of each
chunk's full text by the maximum.  With a budget of 2 tokens, the document
`aaaa\nbbbb` (9 characters, estimate 3) is over budget and enters the
splitting loop, yet the loop, which sums per-line estimates (1 each) and
never counts the newline separators, emits the whole document as one
two-line chunk of estimate 3 > 2 — and neither line alone exceeds the
maximum, so the single-oversized-line exception does not apply. -/
theorem C5_counterexample :
    chunkText "aaaa\nbbbb".data 2 = ["aaaa\nbbbb".data] ∧
    ¬(estimateTokens "aaaa\nbbbb".data ≤ 2) ∧
    (splitLines "aaaa\nbbbb".data).length = 2 ∧
    estimateTokens "aaaa".data ≤ 2 ∧ estimateTokens "bbbb".data ≤ 2 := by
  decide

theorem chunkLoop_budget (maxTokens : Nat) :
    ∀ (ls cur : List (List Char)) (tok : Nat) (c : List Char),
      (∀ l ∈ cur, '\n' ∉ l) → (∀ l ∈ ls, '\n' ∉ l) →
      tok = (cur.map estimateTokens).sum →
      ((cur.map estimateTokens).sum ≤ maxTokens ∨ cur.length = 1) →
      c ∈ chunkLoop maxTokens ls cur tok →
      ((splitLines c).map estimateTokens).sum ≤ maxTokens ∨
        (splitLines c).length = 1 := by
  intro ls
  induction ls with
  | nil =>
    intro cur tok c hc _ _ hinv hmem
    rw [chunkLoop_nil] at hmem
    by_cases h : cur.isEmpty
    · rw [if_pos h] at hmem; simp at hmem
    · rw [if_neg h] at hmem
      have hcur : cur ≠ [] := fun e => h (by simp [e])
      have : c = joinLines cur := by simpa using hmem
      subst this
      rw [splitLines_joinLines hcur hc]
      exact hinv
  | cons ln ls2 ih =>
    intro cur tok c hc hl htok hinv hmem
    rw [chunkLoop_cons] at hmem
    by_cases hg : tok + estimateTokens ln > maxTokens ∧ ¬cur.isEmpty
    · rw [if_pos hg] at hmem
      have hcur : cur ≠ [] := fun e => hg.2 (by simp [e])
      rcases List.mem_cons.mp hmem with rfl | hmem
      · rw [splitLines_joinLines hcur hc]
        exact hinv
      · refine ih [ln] (estimateTokens ln) c ?_ (fun x hx => hl x (by simp [hx])) (by simp) ?_ hmem
        · intro x hx
          simp only [List.mem_singleton] at hx
          subst hx
          exact hl x (by simp)
        · right; rfl
    · rw [if_neg hg] at hmem
      refine ih (cur ++ [ln]) (tok + estimateTokens ln) c ?_
        (fun x hx => hl x (by simp [hx])) ?_ ?_ hmem
      · intro x hx
        rcases List.mem_append.mp hx with hx | hx
        · exact hc x hx
        · have hxl : x = ln := by simpa using hx
          subst hxl
          exact hl x (by simp)
      · rw [htok]; simp
      · rcases Decidable.not_and_iff_or_not.mp hg with hg2 | hg2
        · left
          simp only [List.map_append, List.sum_append, List.map_cons, List.sum_cons,
            List.map_nil, List.sum_nil, Nat.add_zero, ← htok]
          omega
        · have hcur : cur = [] := by
            rcases cur with _ | _
            · rfl
            · simp at hg2
          subst hcur
          right; rfl

/-- Claim C5 (amended): every chunk either is the whole document emitted
because its full-text estimate fits the budget, or is produced by the
splitting loop, which bounds the sum of the per-line token estimates (the
newline separators are not counted, so the full-chunk estimate can exceed
the budget by up to the number of joined lines), or is a single line emitted
alone even though its own estimate exceeds the budget. -/
theorem C5_chunk_size_amended (text : List Char) (maxTokens : Nat) (c : List Char)
    (hc : c ∈ chunkText text maxTokens) :
    estimateTokens c ≤ maxTokens ∨
    ((splitLines c).map estimateTokens).sum ≤ maxTokens ∨
    (splitLines c).length = 1 := by
  unfold chunkText at hc
  by_cases h : estimateTokens text ≤ maxTokens
  · rw [if_pos h] at hc
    have : c = text := by simpa using hc
    subst this
    exact Or.inl h
  · rw [if_neg h] at hc
    refine Or.inr (chunkLoop_budget maxTokens (splitLines text) [] 0 c (by simp)
      (fun l hl => splitLines_no_nl l hl) (by simp) (by simp) hc)

theorem C5_witness :
    "aaaa\nbbbb".data ∈ chunkText "aaaa\nbbbb".data 2 ∧
    (estimateTokens "aaaa\nbbbb".data ≤ 2 ∨
     ((splitLines "aaaa\nbbbb".data).map estimateTokens).sum ≤ 2 ∨
     (splitLines "aaaa\nbbbb".data).length = 1) :=
  ⟨by decide, C5_chunk_size_amended "aaaa\nbbbb".data 2 "aaaa\nbbbb".data (by decide)⟩

/-! ## The descending stable sort: extraction of one element -/

theorem insDescBy_split {α : Type} (lineOf : α → Int) (l : List α) (x : α) :
    ∃ s1 s2, insDescBy lineOf l x = s1 ++ x :: s2 ∧ l = s1 ++ s2 := by
  induction l with
  | nil => exact ⟨[], [], rfl, rfl⟩
  | cons d ds ih =>
    by_cases h : lineOf d ≥ lineOf x
    · obtain ⟨s1, s2, h1, h2⟩ := ih
      exact ⟨d :: s1, s2, by simp [insDescBy, h, h1], by simp [h2]⟩
    · exact ⟨[], d :: ds, by simp [insDescBy, h], rfl⟩

theorem mem_insDescBy {α : Type} {lineOf : α → Int} {l : List α} {x y : α}
    (h : y ∈ insDescBy lineOf l x) : y ∈ l ∨ y = x := by
  induction l with
  | nil =>
    right
    simpa [insDescBy] using h
  | cons d ds ih =>
    by_cases hd : lineOf d ≥ lineOf x
    · rw [show insDescBy lineOf (d :: ds) x = d :: insDescBy lineOf ds x by
        simp [insDescBy, hd]] at h
      rcases List.mem_cons.mp h with rfl | h
      · left; simp
      · rcases ih h with h | h
        · left; simp [h]
        · right; exact h
    · rw [show insDescBy lineOf (d :: ds) x = x :: d :: ds by simp [insDescBy, hd]] at h
      rcases List.mem_cons.mp h with rfl | h
      · right; rfl
      · left; exact h

theorem pairwise_insDescBy {α : Type} {lineOf : α → Int} {l : List α} {x : α}
    (h : l.Pairwise (fun a b => lineOf b ≤ lineOf a)) :
    (insDescBy lineOf l x).Pairwise (fun a b => lineOf b ≤ lineOf a) := by
  induction l with
  | nil => simp [insDescBy]
  | cons d ds ih =>
    rcases List.pairwise_cons.mp h with ⟨hd, hds⟩
    by_cases hdx : lineOf d ≥ lineOf x
    · rw [show insDescBy lineOf (d :: ds) x = d :: insDescBy lineOf ds x by
        simp [insDescBy, hdx]]
      refine List.pairwise_cons.mpr ⟨?_, ih hds⟩
      intro y hy
      rcases mem_insDescBy hy with hy | rfl
      · exact hd y hy
      · exact hdx
    · rw [show insDescBy lineOf (d :: ds) x = x :: d :: ds by simp [insDescBy, hdx]]
      refine List.pairwise_cons.mpr ⟨?_, h⟩
      intro y hy
      rcases List.mem_cons.mp hy with rfl | hy
      · omega
      · have := hd y hy
        omega

theorem mem_foldl_insDescBy {α : Type} {lineOf : α → Int} {xs : List α} :
    ∀ {acc : List α} {y : α}, y ∈ xs.foldl (insDescBy lineOf) acc → y ∈ acc ∨ y ∈ xs := by
  induction xs with
  | nil =>
    intro acc y h
    left
    simpa using h
  | cons x xs ih =>
    intro acc y h
    rw [List.foldl_cons] at h
    rcases ih h with h | h
    · rcases mem_insDescBy h with h | rfl
      · left; exact h
      · right; simp
    · right; simp [h]

theorem pairwise_foldl_insDescBy {α : Type} {lineOf : α → Int} {xs : List α} :
    ∀ {acc : List α}, acc.Pairwise (fun a b => lineOf b ≤ lineOf a) →
      (xs.foldl (insDescBy lineOf) acc).Pairwise (fun a b => lineOf b ≤ lineOf a) := by
  induction xs with
  | nil => intro acc h; simpa using h
  | cons x xs ih =>
    intro acc h
    rw [List.foldl_cons]
    exact ih (pairwise_insDescBy h)

theorem insDescBy_step {α : Type} (lineOf : α → Int) (x c : α) :
    ∀ (s1 s2 : List α),
      (s1 ++ c :: s2).Pairwise (fun a b => lineOf b ≤ lineOf a) →
      ∃ t1 t2, insDescBy lineOf (s1 ++ c :: s2) x = t1 ++ c :: t2 ∧
        insDescBy lineOf (s1 ++ s2) x = t1 ++ t2 ∧
        (t1 ++ c :: t2).Pairwise (fun a b => lineOf b ≤ lineOf a) := by
  intro s1
  induction s1 with
  | nil =>
    intro s2 hp
    rcases List.pairwise_cons.mp hp with ⟨hc, hs2⟩
    by_cases hcx : lineOf c ≥ lineOf x
    · refine ⟨[], insDescBy lineOf s2 x, by simp [insDescBy, hcx], by simp, ?_⟩
      refine List.pairwise_cons.mpr ⟨?_, pairwise_insDescBy hs2⟩
      intro y hy
      rcases mem_insDescBy hy with hy | rfl
      · exact hc y hy
      · exact hcx
    · have hs2ins : insDescBy lineOf s2 x = x :: s2 := by
        cases s2 with
        | nil => rfl
        | cons d ds =>
          have hd := hc d (by simp)
          have : ¬lineOf d ≥ lineOf x := by omega
          simp [insDescBy, this]
      refine ⟨[x], s2, by simp [insDescBy, hcx], by simpa using hs2ins, ?_⟩
      refine List.pairwise_cons.mpr ⟨?_, hp⟩
      intro y hy
      rcases List.mem_cons.mp hy with rfl | hy
      · omega
      · have := hc y hy
        omega
  | cons d s1' ih =>
    intro s2 hp
    rcases List.pairwise_cons.mp hp with ⟨hd, hp'⟩
    by_cases hdx : lineOf d ≥ lineOf x
    · obtain ⟨t1, t2, e1, e2, hp''⟩ := ih s2 hp'
      refine ⟨d :: t1, t2, ?_, ?_, ?_⟩
      · rw [show (d :: s1') ++ c :: s2 = d :: (s1' ++ c :: s2) from rfl]
        simp [insDescBy, hdx, e1]
      · rw [show (d :: s1') ++ s2 = d :: (s1' ++ s2) from rfl]
        simp [insDescBy, hdx, e2]
      · refine List.pairwise_cons.mpr ⟨?_, hp''⟩
        intro y hy
        have hy' : y ∈ insDescBy lineOf (s1' ++ c :: s2) x := by rw [e1]; simpa using hy
        rcases mem_insDescBy hy' with hy' | rfl
        · exact hd y hy'
        · exact hdx
    · refine ⟨x :: d :: s1', s2, ?_, ?_, ?_⟩
      · rw [show (d :: s1') ++ c :: s2 = d :: (s1' ++ c :: s2) from rfl]
        simp [insDescBy, hdx]
      · rw [show (d :: s1') ++ s2 = d :: (s1' ++ s2) from rfl]
        simp [insDescBy, hdx]
      · refine List.pairwise_cons.mpr ⟨?_, hp⟩
        intro y hy
        rcases List.mem_cons.mp hy with rfl | hy
        · omega
        · have := hd y (by
            rcases List.mem_append.mp hy with hy | hy
            · exact List.mem_append.mpr (Or.inl hy)
            · exact List.mem_append.mpr (Or.inr hy))
          omega

theorem foldl_insDescBy_extract {α : Type} (lineOf : α → Int) (xs : List α) :
    ∀ (s1 s2 : List α) (c : α),
      (s1 ++ c :: s2).Pairwise (fun a b => lineOf b ≤ lineOf a) →
      ∃ u1 u2, xs.foldl (insDescBy lineOf) (s1 ++ c :: s2) = u1 ++ c :: u2 ∧
        xs.foldl (insDescBy lineOf) (s1 ++ s2) = u1 ++ u2 := by
  induction xs with
  | nil => intro s1 s2 c hp; exact ⟨s1, s2, rfl, rfl⟩
  | cons x xs ih =>
    intro s1 s2 c hp
    obtain ⟨t1, t2, e1, e2, hp'⟩ := insDescBy_step lineOf x c s1 s2 hp
    rw [List.foldl_cons, List.foldl_cons, e1, e2]
    exact ih t1 t2 c hp'

theorem sortDescBy_extract {α : Type} (lineOf : α → Int) (cs1 cs2 : List α) (c : α) :
    ∃ u1 u2, sortDescBy lineOf (cs1 ++ c :: cs2) = u1 ++ c :: u2 ∧
      sortDescBy lineOf (cs1 ++ cs2) = u1 ++ u2 ∧
      (∀ y ∈ u1, y ∈ cs1 ++ cs2) := by
  unfold sortDescBy
  rw [List.foldl_append, List.foldl_append, List.foldl_cons]
  have hpA : (cs1.foldl (insDescBy lineOf) []).Pairwise
      (fun a b => lineOf b ≤ lineOf a) := pairwise_foldl_insDescBy (by simp)
  obtain ⟨s1, s2, e1, e2⟩ := insDescBy_split lineOf (cs1.foldl (insDescBy lineOf) []) c
  have hp1 : (s1 ++ c :: s2).Pairwise (fun a b => lineOf b ≤ lineOf a) := by
    rw [← e1]; exact pairwise_insDescBy hpA
  obtain ⟨u1, u2, f1, f2⟩ := foldl_insDescBy_extract lineOf cs2 s1 s2 c hp1
  refine ⟨u1, u2, by rw [e1]; exact f1, by rw [e2]; exact f2, ?_⟩
  intro y hy
  have hy2 : y ∈ cs2.foldl (insDescBy lineOf) (s1 ++ s2) := by
    rw [f2]; exact List.mem_append.mpr (Or.inl hy)
  rcases mem_foldl_insDescBy hy2 with hy2 | hy2
  · rw [← e2] at hy2
    rcases mem_foldl_insDescBy hy2 with hy2 | hy2
    · simp at hy2
    · exact List.mem_append.mpr (Or.inl hy2)
  · exact List.mem_append.mpr (Or.inr hy2)

/-! ## Corrector step lemmas -/

theorem stepCorr_eq (lines : List (List Char)) (c : Change) :
    stepCorr lines c =
      if 0 ≤ c.line - 1 ∧ c.line - 1 < (lines.length : Int) then
        updateAt (c.line - 1).toNat (fun l => replaceFirstJS l c.fromText c.toText) lines
      else lines := rfl

theorem stepCorr_length (lines : List (List Char)) (c : Change) :
    (stepCorr lines c).length = lines.length := by
  rw [stepCorr_eq]
  split
  · exact updateAt_length _ _ _
  · rfl

theorem foldl_stepCorr_length (cs : List Change) :
    ∀ lines, (cs.foldl stepCorr lines).length = lines.length := by
  induction cs with
  | nil => intro lines; rfl
  | cons c cs ih =>
    intro lines
    rw [List.foldl_cons, ih, stepCorr_length]

theorem stepCorr_get?_ne {lines : List (List Char)} {c : Change} {j : Nat}
    (h : c.line ≠ (j : Int) + 1) : (stepCorr lines c).get? j = lines.get? j := by
  rw [stepCorr_eq]
  split
  · next hin =>
    apply updateAt_get?_ne
    intro he
    apply h
    have h0 : (0 : Int) ≤ c.line - 1 := hin.1
    omega
  · rfl

theorem foldl_stepCorr_get?_ne {cs : List Change} {j : Nat}
    (h : ∀ x ∈ cs, x.line ≠ (j : Int) + 1) :
    ∀ lines, (cs.foldl stepCorr lines).get? j = lines.get? j := by
  induction cs with
  | nil => intro lines; rfl
  | cons c cs ih =>
    intro lines
    rw [List.foldl_cons, ih (fun x hx => h x (by simp [hx])),
      stepCorr_get?_ne (h c (by simp))]

theorem stepCorr_noop_oor {lines : List (List Char)} {c : Change}
    (h : c.line ≤ 0 ∨ (lines.length : Int) < c.line) : stepCorr lines c = lines := by
  rw [stepCorr_eq, if_neg]
  intro hin
  rcases h with h | h
  · have := hin.1; omega
  · have := hin.2; omega

theorem stepCorr_noop_absent {lines : List (List Char)} {c : Change}
    (h : ∀ l, lines.get? (c.line - 1).toNat = some l → infixIn c.fromText l = false) :
    stepCorr lines c = lines := by
  rw [stepCorr_eq]
  split
  · apply updateAt_eq_self
    intro x hx
    exact replaceFirstJS_not_found _ (h x hx)
  · rfl

/-! ## Claim C7: invalid corrections are silent no-ops -/

/-- Claim C7 counterexample: on the one-line document `abc`, the correction
`x → y` has `from` text absent from the target line, yet applying the batch
`[b → xz, x → y]` gives a different result than applying `[b → xz]` alone:
the earlier same-line correction introduces an `x`, which the "invalid"
correction then rewrites. -/
theorem C7_counterexample :
    infixIn "x".data "abc".data = false ∧
    (splitLines "abc".data).get? 0 = some "abc".data ∧
    applyAutoCorrections "abc".data
        [⟨1, CKind.grammar, "b".data, "xz".data, none⟩,
         ⟨1, CKind.grammar, "x".data, "y".data, none⟩] ≠
      applyAutoCorrections "abc".data
        [⟨1, CKind.grammar, "b".data, "xz".data, none⟩] := by
  decide

/-- Claim C7 (amended): a correction whose target line is out of the
document's range contributes nothing: the batch result equals the result
with it removed, and no error is raised.  The same holds for a correction
whose `from` text is not a substring of the target line, provided no other
correction in the batch targets the same line — corrections processed
earlier on the same line may rewrite it and make the `from` text appear, in
which case the "invalid" correction does fire. -/
theorem C7_skip_invalid_amended (text : List Char) (cs1 cs2 : List Change) (c : Change)
    (h : (c.line ≤ 0 ∨ ((splitLines text).length : Int) < c.line) ∨
         ((∀ x ∈ cs1 ++ cs2, x.line ≠ c.line) ∧
          ∀ l, (splitLines text).get? (c.line - 1).toNat = some l →
            infixIn c.fromText l = false)) :
    applyAutoCorrections text (cs1 ++ c :: cs2) = applyAutoCorrections text (cs1 ++ cs2) := by
  unfold applyAutoCorrections
  obtain ⟨u1, u2, e1, e2, hmem⟩ := sortDescBy_extract Change.line cs1 cs2 c
  rw [e1, e2, List.foldl_append, List.foldl_append, List.foldl_cons]
  have hnoop : stepCorr (List.foldl stepCorr (splitLines text) u1) c =
      List.foldl stepCorr (splitLines text) u1 := by
    by_cases hoor : c.line ≤ 0 ∨ ((splitLines text).length : Int) < c.line
    · apply stepCorr_noop_oor
      rcases hoor with h1 | h1
      · exact Or.inl h1
      · refine Or.inr ?_
        rw [foldl_stepCorr_length u1 (splitLines text)]
        exact h1
    · rcases h with h | ⟨hlines, habs⟩
      · exact absurd h hoor
      · apply stepCorr_noop_absent
        intro l hl
        rw [foldl_stepCorr_get?_ne] at hl
        · exact habs l hl
        · intro x hx
          have hx2 := hlines x (hmem x hx)
          intro he
          apply hx2
          have h1 : (1 : Int) ≤ c.line := by omega
          omega
  rw [hnoop]

theorem C7_witness :
    applyAutoCorrections "abc\ndef".data
        [⟨1, CKind.grammar, "a".data, "Q".data, none⟩,
         ⟨2, CKind.spelling, "zz".data, "w".data, none⟩] =
      applyAutoCorrections "abc\ndef".data
        [⟨1, CKind.grammar, "a".data, "Q".data, none⟩] :=
  C7_skip_invalid_amended "abc\ndef".data
    [⟨1, CKind.grammar, "a".data, "Q".data, none⟩] []
    ⟨2, CKind.spelling, "zz".data, "w".data, none⟩
    (Or.inr ⟨by decide, by
      intro l hl
      have he : (splitLines "abc\ndef".data).get? (((2 : Int) - 1).toNat) =
          some "def".data := by decide
      have hleq : l = "def".data := (Option.some.inj (he.symm.trans hl)).symm
      subst hleq
      decide⟩)

/-! ## Claim C10: first-occurrence replacement -/

theorem startsWithL_infixIn {pat s : List Char} (h : startsWithL pat s = true) :
    infixIn pat s = true := by
  cases s with
  | nil => simpa [infixIn] using h
  | cons c cs => simp [infixIn, h]

theorem startsWithL_take {pat : List Char} :
    ∀ {s : List Char} {k : Nat}, startsWithL pat s = true → pat.length ≤ k →
      startsWithL pat (s.take k) = true := by
  induction pat with
  | nil => intro s k _ _; rfl
  | cons p ps ih =>
    intro s k h hk
    cases s with
    | nil => simp [startsWithL] at h
    | cons c cs =>
      simp only [startsWithL, Bool.and_eq_true, beq_iff_eq] at h
      obtain ⟨rfl, h⟩ := h
      cases k with
      | zero => simp [List.length_cons] at hk
      | succ k' =>
        rw [List.take_succ_cons]
        simp only [startsWithL, Bool.and_eq_true, beq_iff_eq]
        exact ⟨by simp, ih h (by simpa using hk)⟩

theorem replFirstAux_first_occ {pat b rep : List Char} (hne : pat ≠ []) :
    ∀ (a acc : List Char), infixIn pat (a ++ pat.dropLast) = false →
      replFirstAux pat rep acc (a ++ (pat ++ b)) =
        (acc.reverse ++ a) ++ getSubst pat (acc.reverse ++ a) b rep ++ b := by
  intro a
  induction a with
  | nil =>
    intro acc _
    rw [List.nil_append,
      replFirstAux_found rep acc (startsWithL_append_self pat b), List.drop_left]
    simp
  | cons c a' ih =>
    intro acc hfst
    have hlen : 1 ≤ pat.length := by
      rcases pat with _ | _
      · exact absurd rfl hne
      · simp
    have hs : startsWithL pat ((c :: a') ++ (pat ++ b)) = false := by
      rcases Bool.eq_false_or_eq_true (startsWithL pat ((c :: a') ++ (pat ++ b))) with
        h1 | h1
      swap
      · exact h1
      · exfalso
        have htk : startsWithL pat
            (((c :: a') ++ (pat ++ b)).take ((c :: a').length + (pat.length - 1))) = true :=
          startsWithL_take h1 (by simp only [List.length_cons]; omega)
        rw [List.take_append, List.take_append_of_le_length (by omega),
          ← List.dropLast_eq_take] at htk
        have h2 := startsWithL_infixIn htk
        have h3 := hfst.symm.trans h2
        simp at h3
    rw [show (c :: a') ++ (pat ++ b) = c :: (a' ++ (pat ++ b)) from rfl]
    rw [show replFirstAux pat rep acc (c :: (a' ++ (pat ++ b))) =
        replFirstAux pat rep (c :: acc) (a' ++ (pat ++ b)) by
      simp only [replFirstAux]
      rw [show startsWithL pat (c :: (a' ++ (pat ++ b))) = false from hs]
      simp]
    rw [ih (c :: acc) (by
      have : infixIn pat ((c :: a') ++ pat.dropLast) = false := hfst
      simp only [List.cons_append, infixIn, Bool.or_eq_false_iff] at this
      exact this.2)]
    simp

theorem replaceFirstJS_first_occ {pat a b rep : List Char} (hne : pat ≠ [])
    (hfst : infixIn pat (a ++ pat.dropLast) = false) :
    replaceFirstJS (a ++ (pat ++ b)) pat rep = a ++ getSubst pat a b rep ++ b := by
  have h2 := @replFirstAux_first_occ pat b rep hne a [] hfst
  simpa [replaceFirstJS] using h2

theorem splitLines_of_no_nl {s : List Char} (h : '\n' ∉ s) : splitLines s = [s] := by
  have h2 := splitLines_joinLines (show [s] ≠ [] by simp) (by simpa using h)
  simpa [joinLines] using h2

/-- Claim C10 counterexample: the claim says the first occurrence of `from`
is replaced by `to` and the rest of the line is unchanged, but JS
`String.replace` interprets `$` patterns in the replacement string: on line
`aba`, replacing `a` by the two characters `$'` yields `baba` (the `$'`
expands to the text after the match), not `$'ba`. -/
theorem C10_counterexample :
    applyAutoCorrections "aba".data
        [⟨1, CKind.grammar, "a".data, ('$' :: '\'' :: []), none⟩] = "baba".data ∧
    "baba".data ≠ ('$' :: '\'' :: []) ++ "ba".data := by
  decide

/-- Claim C10 (amended): for a correction whose `from` text occurs on the
target line, only the first (leftmost) occurrence is rewritten and the text
on both sides of it is untouched; the inserted text is the JS
`GetSubstitution` expansion of `to` (`$$`, `$&`, dollar-backquote and `$'`
are substituted; a `to` free of the dollar character is inserted
literally). -/
theorem C10_replace_first_amended (a f b to2 : List Char) (k : CKind)
    (ctx : Option (List Char)) (hne : f ≠ [])
    (hnl : '\n' ∉ a ++ (f ++ b)) (hfst : infixIn f (a ++ f.dropLast) = false) :
    applyAutoCorrections (a ++ (f ++ b)) [⟨1, k, f, to2, ctx⟩] =
      a ++ getSubst f a b to2 ++ b := by
  unfold applyAutoCorrections
  rw [show sortDescBy Change.line [⟨1, k, f, to2, ctx⟩] = [⟨1, k, f, to2, ctx⟩] from rfl,
    List.foldl_cons, List.foldl_nil, splitLines_of_no_nl hnl]
  rw [stepCorr_eq, if_pos (by exact ⟨by norm_num, by simp⟩)]
  show joinLines (updateAt ((1 : Int) - 1).toNat _ [a ++ (f ++ b)]) = _
  rw [show ((1 : Int) - 1).toNat = 0 by rfl]
  show joinLines [replaceFirstJS (a ++ (f ++ b)) f to2] = _
  rw [replaceFirstJS_first_occ hne hfst]
  rfl

theorem C10_witness :
    "ab".data ≠ ([] : List Char) ∧
    applyAutoCorrections ("x".data ++ ("ab".data ++ "zab".data))
        [⟨1, CKind.grammar, "ab".data, "q".data, none⟩] =
      "x".data ++ getSubst "ab".data "x".data "zab".data "q".data ++ "zab".data :=
  ⟨by decide,
   C10_replace_first_amended "x".data "ab".data "zab".data "q".data CKind.grammar none
     (by decide) (by decide) (by decide)⟩

/-! ## Claim C1: marker round-trip

The round-trip theorem needs the lazy `(.*?)` loop to stop exactly at the
end of the encoded description, so the continuation must fail at every
earlier position.  The side conditions are collected in the decidable
predicates below. -/

/-- Head of the list is a JS whitespace character. -/
def headIsWs : List Char → Bool
  | [] => false
  | c :: _ => jsWs c

/-- Conditions on a description under which the marker round-trips: no
`-->`, no `Suggested:`, no leading or trailing whitespace, and no
line-terminator characters (which regex `.` cannot match). -/
def descOk (d : List Char) : Bool :=
  !infixIn arrowL d && !infixIn sugL d && !headIsWs d && !headIsWs d.reverse &&
    d.all isDotChar

/-- Conditions on the suggested text: when present it is nonempty (the
annotator drops the clause for the falsy empty string), has no `-->` and no
double quote (the grammar reads the replacement as `"[^"]*"`). -/
def sugTextOk : Option (List Char) → Bool
  | none => true
  | some q => !q.isEmpty && !infixIn arrowL q && q.all (fun c => c != '\"')

/-- The id has the shape `S` followed by one or more digits. -/
def idOk : List Char → Bool
  | [] => false
  | c :: ds => c == 'S' && !ds.isEmpty && ds.all isDigitCh

theorem startsWithL_append_split {pat : List Char} :
    ∀ {x y : List Char}, startsWithL pat (x ++ y) = true →
      startsWithL pat x = true ∨
        (x.length < pat.length ∧ startsWithL (pat.drop x.length) y = true) := by
  induction pat with
  | nil => intro x y _; left; rfl
  | cons p ps ih =>
    intro x y h
    cases x with
    | nil =>
      right
      exact ⟨by simp, by simpa using h⟩
    | cons c x' =>
      simp only [List.cons_append, startsWithL, Bool.and_eq_true, beq_iff_eq] at h
      obtain ⟨rfl, h⟩ := h
      rcases ih h with h2 | ⟨hl, h2⟩
      · left
        simp [startsWithL, h2]
      · right
        exact ⟨by simpa using hl, by simpa using h2⟩

theorem mem_of_mem_drop {α : Type} {l : List α} {k : Nat} {x : α}
    (h : x ∈ l.drop k) : x ∈ l :=
  (List.drop_sublist k l).subset h

theorem no_space_pat_fail {pat r1 sfx2 : List Char}
    (hpat : ∀ c ∈ pat, c ≠ ' ') (hr1 : infixIn pat r1 = false) :
    startsWithL pat (r1 ++ ' ' :: sfx2) = false := by
  rcases Bool.eq_false_or_eq_true (startsWithL pat (r1 ++ ' ' :: sfx2)) with h1 | h1
  swap
  · exact h1
  · exfalso
    rcases startsWithL_append_split h1 with h2 | ⟨hl, h2⟩
    · have := startsWithL_infixIn h2
      have h3 := hr1.symm.trans this
      simp at h3
    · rcases hdrop : pat.drop r1.length with _ | ⟨ph, pr⟩
      · have : pat.length ≤ r1.length := by
          have := List.drop_eq_nil_iff.mp hdrop
          omega
        omega
      · rw [hdrop] at h2
        simp only [startsWithL, Bool.and_eq_true, beq_iff_eq] at h2
        have hmem : ph ∈ pat := mem_of_mem_drop (by rw [hdrop]; simp)
        exact hpat ph hmem h2.1

theorem sugL_no_space : ∀ c ∈ sugL, c ≠ ' ' := by decide

theorem arrowL_no_space : ∀ c ∈ arrowL, c ≠ ' ' := by decide

theorem dropWhile_ws_ne_nil {r : List Char} (hne : r ≠ [])
    (hlast : headIsWs r.reverse = false) : r.dropWhile jsWs ≠ [] := by
  intro hnil
  have hall : ∀ c ∈ r, jsWs c = true := by
    intro c hc
    exact List.dropWhile_eq_nil_iff.mp hnil c hc
  rcases hrev : r.reverse with _ | ⟨c, cs⟩
  · exact hne (by simpa using congrArg List.reverse hrev)
  · have hc : c ∈ r := by
      rw [← List.mem_reverse, hrev]
      simp
    have := hall c hc
    rw [show headIsWs r.reverse = jsWs c by rw [hrev]; rfl, this] at hlast
    simp at hlast

theorem infixIn_of_dropWhile {pat r : List Char} {p : Char → Bool}
    (h : infixIn pat (r.dropWhile p) = true) : infixIn pat r = true := by
  induction r with
  | nil => simpa using h
  | cons c cs ih =>
    by_cases hc : p c
    · rw [List.dropWhile_cons_of_pos hc] at h
      simp [infixIn, ih h]
    · rw [List.dropWhile_cons_of_neg hc] at h
      simpa [infixIn] using h

theorem matchTail_fail {r sfx2 : List Char} (hne : r ≠ [])
    (harrow : infixIn arrowL r = false) (hsug : infixIn sugL r = false)
    (hlast : headIsWs r.reverse = false) :
    matchTail (r ++ ' ' :: sfx2) = none := by
  have hr1 : r.dropWhile jsWs ≠ [] := dropWhile_ws_ne_nil hne hlast
  have hdw : (r ++ ' ' :: sfx2).dropWhile jsWs = r.dropWhile jsWs ++ ' ' :: sfx2 :=
    dropWhile_append_of_ne_nil _ hr1
  have harrow1 : infixIn arrowL (r.dropWhile jsWs) = false := by
    rcases Bool.eq_false_or_eq_true (infixIn arrowL (r.dropWhile jsWs)) with h1 | h1
    · have := (infixIn_of_dropWhile h1).symm.trans harrow
      simp at this
    · exact h1
  have hsug1 : infixIn sugL (r.dropWhile jsWs) = false := by
    rcases Bool.eq_false_or_eq_true (infixIn sugL (r.dropWhile jsWs)) with h1 | h1
    · have := (infixIn_of_dropWhile h1).symm.trans hsug
      simp at this
    · exact h1
  have hlitS : lit sugL ((r ++ ' ' :: sfx2).dropWhile jsWs) = none := by
    rw [hdw]
    unfold lit
    rw [no_space_pat_fail sugL_no_space hsug1]
    simp
  have hlitA : lit arrowL ((r ++ ' ' :: sfx2).dropWhile jsWs) = none := by
    rw [hdw]
    unfold lit
    rw [no_space_pat_fail arrowL_no_space harrow1]
    simp
  unfold matchTail matchTailSug matchTailEnd
  rw [hlitS, hlitA]

theorem headIsWs_append_last {xs : List Char} (c : Char) (h : xs ≠ []) :
    headIsWs (xs ++ [c]) = headIsWs xs := by
  cases xs with
  | nil => exact absurd rfl h
  | cons a as => rfl

theorem matchTailSug_compute (w q : List Char) (hw : ∀ c ∈ w, jsWs c = true)
    (hq : ∀ c ∈ q, (c != '\"') = true) :
    matchTailSug (w ++ (sugL ++ (' ' :: '\"' :: (q ++ ('\"' :: (' ' :: arrowL)))))) =
      some (w ++ (sugL ++ (' ' :: '\"' :: (q ++ ('\"' :: (' ' :: arrowL))))), some q, []) := by
  have hA : (w ++ (sugL ++ (' ' :: '\"' :: (q ++ ('\"' :: (' ' :: arrowL)))))).dropWhile jsWs =
      sugL ++ (' ' :: '\"' :: (q ++ ('\"' :: (' ' :: arrowL)))) := by
    rw [dropWhile_append_all _ hw,
      show sugL ++ (' ' :: '\"' :: (q ++ ('\"' :: (' ' :: arrowL)))) =
        'S' :: ('u' :: 'g' :: 'g' :: 'e' :: 's' :: 't' :: 'e' :: 'd' :: ':' ::
          (' ' :: '\"' :: (q ++ ('\"' :: (' ' :: arrowL))))) from rfl,
      List.dropWhile_cons_of_neg (by decide)]
  have hAt : (w ++ (sugL ++ (' ' :: '\"' :: (q ++ ('\"' :: (' ' :: arrowL)))))).takeWhile jsWs =
      w := by
    rw [takeWhile_append_all _ hw,
      show sugL ++ (' ' :: '\"' :: (q ++ ('\"' :: (' ' :: arrowL)))) =
        'S' :: ('u' :: 'g' :: 'g' :: 'e' :: 's' :: 't' :: 'e' :: 'd' :: ':' ::
          (' ' :: '\"' :: (q ++ ('\"' :: (' ' :: arrowL))))) from rfl,
      List.takeWhile_cons_of_neg (by decide)]
    simp
  have hlit1 : lit sugL (sugL ++ (' ' :: '\"' :: (q ++ ('\"' :: (' ' :: arrowL))))) =
      some (' ' :: '\"' :: (q ++ ('\"' :: (' ' :: arrowL)))) := lit_self _ _
  have hB : (' ' :: '\"' :: (q ++ ('\"' :: (' ' :: arrowL)))).dropWhile jsWs =
      '\"' :: (q ++ ('\"' :: (' ' :: arrowL))) := by
    rw [List.dropWhile_cons_of_pos (by decide), List.dropWhile_cons_of_neg (by decide)]
  have hBt : (' ' :: '\"' :: (q ++ ('\"' :: (' ' :: arrowL)))).takeWhile jsWs = [' '] := by
    rw [List.takeWhile_cons_of_pos (by decide), List.takeWhile_cons_of_neg (by decide)]
  have hlit2 : lit ['\"'] ('\"' :: (q ++ ('\"' :: (' ' :: arrowL)))) =
      some (q ++ ('\"' :: (' ' :: arrowL))) := lit_self ['\"'] _
  have hC : (q ++ ('\"' :: (' ' :: arrowL))).dropWhile (fun c => c != '\"') =
      '\"' :: (' ' :: arrowL) := by
    rw [dropWhile_append_all _ hq, List.dropWhile_cons_of_neg (by decide)]
  have hCt : (q ++ ('\"' :: (' ' :: arrowL))).takeWhile (fun c => c != '\"') = q := by
    rw [takeWhile_append_all _ hq, List.takeWhile_cons_of_neg (by decide)]
    simp
  have hlit3 : lit ['\"'] ('\"' :: (' ' :: arrowL)) = some (' ' :: arrowL) :=
    lit_self ['\"'] _
  have hD : (' ' :: arrowL).dropWhile jsWs = arrowL := by
    rw [List.dropWhile_cons_of_pos (by decide),
      show arrowL = '-' :: ('-' :: '>' :: []) from rfl,
      List.dropWhile_cons_of_neg (by decide)]
  have hDt : (' ' :: arrowL).takeWhile jsWs = [' '] := by
    rw [List.takeWhile_cons_of_pos (by decide),
      show arrowL = '-' :: ('-' :: '>' :: []) from rfl,
      List.takeWhile_cons_of_neg (by decide)]
  have hlit4 : lit arrowL arrowL = some [] := by decide
  simp only [matchTailSug, hA, hAt, hlit1, hB, hBt, hlit2, hC, hCt, hlit3, hD, hDt, hlit4]
  simp

theorem matchTailSug_arrow_none (w : List Char) (hw : ∀ c ∈ w, jsWs c = true) :
    matchTailSug (w ++ arrowL) = none := by
  have hA : (w ++ arrowL).dropWhile jsWs = arrowL := by
    rw [dropWhile_append_all _ hw, show arrowL = '-' :: ('-' :: '>' :: []) from rfl,
      List.dropWhile_cons_of_neg (by decide)]
  have hlit : lit sugL arrowL = none := by decide
  simp only [matchTailSug, hA, hlit]

theorem matchTailEnd_arrow (w : List Char) (hw : ∀ c ∈ w, jsWs c = true) :
    matchTailEnd (w ++ arrowL) = some (w ++ arrowL, none, []) := by
  have hA : (w ++ arrowL).dropWhile jsWs = arrowL := by
    rw [dropWhile_append_all _ hw, show arrowL = '-' :: ('-' :: '>' :: []) from rfl,
      List.dropWhile_cons_of_neg (by decide)]
  have hAt : (w ++ arrowL).takeWhile jsWs = w := by
    rw [takeWhile_append_all _ hw, show arrowL = '-' :: ('-' :: '>' :: []) from rfl,
      List.takeWhile_cons_of_neg (by decide)]
    simp
  have hlit4 : lit arrowL arrowL = some [] := by decide
  simp only [matchTailEnd, hA, hAt, hlit4]

theorem matchTail_arrow (w : List Char) (hw : ∀ c ∈ w, jsWs c = true) :
    matchTail (w ++ arrowL) = some (w ++ arrowL, none, []) := by
  unfold matchTail
  rw [matchTailSug_arrow_none w hw, matchTailEnd_arrow w hw]

theorem matchTail_sugClause (w q : List Char) (hw : ∀ c ∈ w, jsWs c = true)
    (hq : ∀ c ∈ q, (c != '\"') = true) :
    matchTail (w ++ (sugL ++ (' ' :: '\"' :: (q ++ ('\"' :: (' ' :: arrowL)))))) =
      some (w ++ (sugL ++ (' ' :: '\"' :: (q ++ ('\"' :: (' ' :: arrowL))))), some q, []) := by
  unfold matchTail
  rw [matchTailSug_compute w q hw hq]

theorem findText_marker {sfx2 tcE : List Char} {sugE : Option (List Char)}
    (hmt : matchTail (' ' :: sfx2) = some (tcE, sugE, [])) :
    ∀ (r acc : List Char), (∀ c ∈ r, isDotChar c = true) → infixIn arrowL r = false →
      infixIn sugL r = false → headIsWs r.reverse = false →
      findText acc (r ++ ' ' :: sfx2) = some (acc.reverse ++ r, tcE, sugE, []) := by
  intro r
  induction r with
  | nil =>
    intro acc _ _ _ _
    rw [List.nil_append, findText_cons, hmt]
    simp
  | cons c r' ih =>
    intro acc hdot harrow hsug hlast
    have hmtf : matchTail ((c :: r') ++ ' ' :: sfx2) = none :=
      matchTail_fail (by simp) harrow hsug hlast
    rw [show (c :: r') ++ ' ' :: sfx2 = c :: (r' ++ ' ' :: sfx2) from rfl] at hmtf ⊢
    rw [findText_cons, hmtf, if_pos (hdot c (by simp))]
    have harrow' : infixIn arrowL r' = false := by
      have h2 : infixIn arrowL (c :: r') = false := harrow
      simp only [infixIn, Bool.or_eq_false_iff] at h2
      exact h2.2
    have hsug' : infixIn sugL r' = false := by
      have h2 : infixIn sugL (c :: r') = false := hsug
      simp only [infixIn, Bool.or_eq_false_iff] at h2
      exact h2.2
    have hlast' : headIsWs r'.reverse = false := by
      rcases hr' : r' with _ | ⟨a, as⟩
      · rfl
      · have h2 : headIsWs ((a :: as).reverse ++ [c]) = false := by
          rw [show (a :: as).reverse ++ [c] = (c :: a :: as).reverse by simp, ← hr']
          exact hlast
        rw [headIsWs_append_last c (by simp)] at h2
        exact h2
    rw [ih (c :: acc) (fun x hx => hdot x (by simp [hx])) harrow' hsug' hlast']
    simp

theorem takeWhile_ws_openL (r : List Char) : (openL ++ r).takeWhile jsWs = [] := by
  rw [show openL ++ r = '<' :: ('!' :: ('-' :: ('-' :: r))) from rfl,
    List.takeWhile_cons_of_neg (by decide)]

theorem dropWhile_ws_openL (r : List Char) : (openL ++ r).dropWhile jsWs = openL ++ r := by
  rw [show openL ++ r = '<' :: ('!' :: ('-' :: ('-' :: r))) from rfl,
    List.dropWhile_cons_of_neg (by decide)]

theorem ne_nil_isEmpty_false {α : Type} {l : List α} (h : l ≠ []) : l.isEmpty = false := by
  cases l with
  | nil => exact absurd rfl h
  | cons a as => rfl

theorem matchAt_encode (ds d : List Char) (sug : Option (List Char)) (ln : Int)
    (k : SKind) (ctx : Option (List Char))
    (hds1 : ds ≠ []) (hds2 : ∀ c ∈ ds, isDigitCh c = true)
    (hd1 : infixIn arrowL d = false) (hd2 : infixIn sugL d = false)
    (hd3 : headIsWs d = false) (hd4 : headIsWs d.reverse = false)
    (hd5 : ∀ c ∈ d, isDotChar c = true)
    (hqc : ∀ q, sug = some q → q ≠ [] ∧ ∀ c ∈ q, (c != '\"') = true) :
    matchAt (encodeMarker ⟨'S' :: ds, ln, k, d, sug, ctx⟩) =
      some (⟨encodeMarker ⟨'S' :: ds, ln, k, d, sug, ctx⟩, 'S' :: ds, d, sug⟩, []) := by
  have hE : encodeMarker ⟨'S' :: ds, ln, k, d, sug, ctx⟩ =
      openL ++ (' ' :: ('[' :: ('S' :: (ds ++ (']' :: (' ' :: (reviewL ++
        (' ' :: (d ++ (sugClause sug ++ (' ' :: arrowL))))))))))) := by
    simp [encodeMarker]
  rw [hE]
  have h0d := dropWhile_ws_openL (' ' :: ('[' :: ('S' :: (ds ++ (']' :: (' ' :: (reviewL ++
    (' ' :: (d ++ (sugClause sug ++ (' ' :: arrowL)))))))))))
  have h0t := takeWhile_ws_openL (' ' :: ('[' :: ('S' :: (ds ++ (']' :: (' ' :: (reviewL ++
    (' ' :: (d ++ (sugClause sug ++ (' ' :: arrowL)))))))))))
  have hl1 := lit_self openL (' ' :: ('[' :: ('S' :: (ds ++ (']' :: (' ' :: (reviewL ++
    (' ' :: (d ++ (sugClause sug ++ (' ' :: arrowL)))))))))))
  have h1d : (' ' :: ('[' :: ('S' :: (ds ++ (']' :: (' ' :: (reviewL ++
      (' ' :: (d ++ (sugClause sug ++ (' ' :: arrowL))))))))))).dropWhile jsWs =
      '[' :: ('S' :: (ds ++ (']' :: (' ' :: (reviewL ++
        (' ' :: (d ++ (sugClause sug ++ (' ' :: arrowL))))))))) := by
    rw [List.dropWhile_cons_of_pos (by decide), List.dropWhile_cons_of_neg (by decide)]
  have h1t : (' ' :: ('[' :: ('S' :: (ds ++ (']' :: (' ' :: (reviewL ++
      (' ' :: (d ++ (sugClause sug ++ (' ' :: arrowL))))))))))).takeWhile jsWs = [' '] := by
    rw [List.takeWhile_cons_of_pos (by decide), List.takeWhile_cons_of_neg (by decide)]
  have hl2 : lit ['['] ('[' :: ('S' :: (ds ++ (']' :: (' ' :: (reviewL ++
      (' ' :: (d ++ (sugClause sug ++ (' ' :: arrowL)))))))))) =
      some ('S' :: (ds ++ (']' :: (' ' :: (reviewL ++
        (' ' :: (d ++ (sugClause sug ++ (' ' :: arrowL))))))))) := lit_self ['['] _
  have hl3 : lit ['S'] ('S' :: (ds ++ (']' :: (' ' :: (reviewL ++
      (' ' :: (d ++ (sugClause sug ++ (' ' :: arrowL))))))))) =
      some (ds ++ (']' :: (' ' :: (reviewL ++
        (' ' :: (d ++ (sugClause sug ++ (' ' :: arrowL)))))))) := lit_self ['S'] _
  have h3t : (ds ++ (']' :: (' ' :: (reviewL ++
      (' ' :: (d ++ (sugClause sug ++ (' ' :: arrowL)))))))).takeWhile isDigitCh = ds := by
    rw [takeWhile_append_all _ hds2, List.takeWhile_cons_of_neg (by decide)]
    simp
  have h3d : (ds ++ (']' :: (' ' :: (reviewL ++
      (' ' :: (d ++ (sugClause sug ++ (' ' :: arrowL)))))))).dropWhile isDigitCh =
      ']' :: (' ' :: (reviewL ++ (' ' :: (d ++ (sugClause sug ++ (' ' :: arrowL)))))) := by
    rw [dropWhile_append_all _ hds2, List.dropWhile_cons_of_neg (by decide)]
  have hl4 : lit [']'] (']' :: (' ' :: (reviewL ++
      (' ' :: (d ++ (sugClause sug ++ (' ' :: arrowL))))))) =
      some (' ' :: (reviewL ++ (' ' :: (d ++ (sugClause sug ++ (' ' :: arrowL)))))) :=
    lit_self [']'] _
  have h4d : (' ' :: (reviewL ++ (' ' :: (d ++ (sugClause sug ++
      (' ' :: arrowL)))))).dropWhile jsWs =
      reviewL ++ (' ' :: (d ++ (sugClause sug ++ (' ' :: arrowL)))) := by
    rw [List.dropWhile_cons_of_pos (by decide),
      show reviewL ++ (' ' :: (d ++ (sugClause sug ++ (' ' :: arrowL)))) =
        'R' :: ('E' :: ('V' :: ('I' :: ('E' :: ('W' :: (':' ::
          (' ' :: (d ++ (sugClause sug ++ (' ' :: arrowL)))))))))) from rfl,
      List.dropWhile_cons_of_neg (by decide)]
  have h4t : (' ' :: (reviewL ++ (' ' :: (d ++ (sugClause sug ++
      (' ' :: arrowL)))))).takeWhile jsWs = [' '] := by
    rw [List.takeWhile_cons_of_pos (by decide),
      show reviewL ++ (' ' :: (d ++ (sugClause sug ++ (' ' :: arrowL)))) =
        'R' :: ('E' :: ('V' :: ('I' :: ('E' :: ('W' :: (':' ::
          (' ' :: (d ++ (sugClause sug ++ (' ' :: arrowL)))))))))) from rfl,
      List.takeWhile_cons_of_neg (by decide)]
  have hl5 : lit reviewL (reviewL ++ (' ' :: (d ++ (sugClause sug ++ (' ' :: arrowL))))) =
      some (' ' :: (d ++ (sugClause sug ++ (' ' :: arrowL)))) := lit_self reviewL _
  have hdse : ds.isEmpty = false := ne_nil_isEmpty_false hds1
  rcases sug with _ | q
  · -- no suggested replacement
    rcases d with _ | ⟨c, d2⟩
    · -- empty description
      have h5d : (' ' :: (([] : List Char) ++ (sugClause none ++ (' ' :: arrowL)))).dropWhile
          jsWs = arrowL := by
        rw [show (' ' :: (([] : List Char) ++ (sugClause none ++ (' ' :: arrowL)))) =
          ' ' :: (' ' :: arrowL) from rfl, List.dropWhile_cons_of_pos (by decide),
          List.dropWhile_cons_of_pos (by decide),
          show arrowL = '-' :: ('-' :: ('>' :: [])) from rfl,
          List.dropWhile_cons_of_neg (by decide)]
      have h5t : (' ' :: (([] : List Char) ++ (sugClause none ++ (' ' :: arrowL)))).takeWhile
          jsWs = [' ', ' '] := by
        rw [show (' ' :: (([] : List Char) ++ (sugClause none ++ (' ' :: arrowL)))) =
          ' ' :: (' ' :: arrowL) from rfl, List.takeWhile_cons_of_pos (by decide),
          List.takeWhile_cons_of_pos (by decide),
          show arrowL = '-' :: ('-' :: ('>' :: [])) from rfl,
          List.takeWhile_cons_of_neg (by decide)]
      have hft : findText [] arrowL = some ([], arrowL, none, []) := by decide
      simp only [matchAt, h0d, hl1, h1d, hl2, hl3, h3t, hdse, Bool.false_eq_true,
        if_false, h3d, hl4, h4d, hl5, h5d, hft, h0t, h1t, h4t, h5t]
      simp [sugClause]
    · -- nonempty description
      have hcw : jsWs c = false := hd3
      have h5d : (' ' :: ((c :: d2) ++ (sugClause none ++ (' ' :: arrowL)))).dropWhile jsWs =
          (c :: d2) ++ (' ' :: arrowL) := by
        rw [List.dropWhile_cons_of_pos (by decide),
          show (c :: d2) ++ (sugClause none ++ (' ' :: arrowL)) =
            c :: (d2 ++ (' ' :: arrowL)) by simp [sugClause],
          List.dropWhile_cons_of_neg (by simp [hcw])]
        simp
      have h5t : (' ' :: ((c :: d2) ++ (sugClause none ++ (' ' :: arrowL)))).takeWhile jsWs =
          [' '] := by
        rw [List.takeWhile_cons_of_pos (by decide),
          show (c :: d2) ++ (sugClause none ++ (' ' :: arrowL)) =
            c :: (d2 ++ (' ' :: arrowL)) by simp [sugClause],
          List.takeWhile_cons_of_neg (by simp [hcw])]
      have hmt : matchTail (' ' :: arrowL) = some (' ' :: arrowL, none, []) := by
        have := matchTail_arrow [' '] (by decide)
        simpa using this
      have hft := findText_marker hmt (c :: d2) [] hd5 hd1 hd2 hd4
      simp only [matchAt, h0d, hl1, h1d, hl2, hl3, h3t, hdse, Bool.false_eq_true,
        if_false, h3d, hl4, h4d, hl5, h5d, hft, h0t, h1t, h4t, h5t]
      simp [sugClause]
  · -- with a suggested replacement
    obtain ⟨hqne, hqq⟩ := hqc q rfl
    have hqe : q.isEmpty = false := ne_nil_isEmpty_false hqne
    have hclause : sugClause (some q) ++ (' ' :: arrowL) =
        ' ' :: (sugL ++ (' ' :: '\"' :: (q ++ ('\"' :: (' ' :: arrowL))))) := by
      simp [sugClause, hqe]
    rcases d with _ | ⟨c, d2⟩
    · -- empty description
      have h5d : (' ' :: (([] : List Char) ++ (sugClause (some q) ++
          (' ' :: arrowL)))).dropWhile jsWs =
          sugL ++ (' ' :: '\"' :: (q ++ ('\"' :: (' ' :: arrowL)))) := by
        rw [List.nil_append, hclause, List.dropWhile_cons_of_pos (by decide),
          List.dropWhile_cons_of_pos (by decide),
          show sugL ++ (' ' :: '\"' :: (q ++ ('\"' :: (' ' :: arrowL)))) =
            'S' :: ('u' :: 'g' :: 'g' :: 'e' :: 's' :: 't' :: 'e' :: 'd' :: ':' ::
              (' ' :: '\"' :: (q ++ ('\"' :: (' ' :: arrowL))))) from rfl,
          List.dropWhile_cons_of_neg (by decide)]
      have h5t : (' ' :: (([] : List Char) ++ (sugClause (some q) ++
          (' ' :: arrowL)))).takeWhile jsWs = [' ', ' '] := by
        rw [List.nil_append, hclause, List.takeWhile_cons_of_pos (by decide),
          List.takeWhile_cons_of_pos (by decide),
          show sugL ++ (' ' :: '\"' :: (q ++ ('\"' :: (' ' :: arrowL)))) =
            'S' :: ('u' :: 'g' :: 'g' :: 'e' :: 's' :: 't' :: 'e' :: 'd' :: ':' ::
              (' ' :: '\"' :: (q ++ ('\"' :: (' ' :: arrowL))))) from rfl,
          List.takeWhile_cons_of_neg (by decide)]
      have hmtY : matchTail (sugL ++ (' ' :: '\"' :: (q ++ ('\"' :: (' ' :: arrowL))))) =
          some (sugL ++ (' ' :: '\"' :: (q ++ ('\"' :: (' ' :: arrowL)))), some q, []) := by
        have := matchTail_sugClause [] q (by simp) hqq
        simpa using this
      have hft : findText [] (sugL ++ (' ' :: '\"' :: (q ++ ('\"' :: (' ' :: arrowL))))) =
          some ([], sugL ++ (' ' :: '\"' :: (q ++ ('\"' :: (' ' :: arrowL)))),
            some q, []) := by
        rw [show sugL ++ (' ' :: '\"' :: (q ++ ('\"' :: (' ' :: arrowL)))) =
          'S' :: ('u' :: 'g' :: 'g' :: 'e' :: 's' :: 't' :: 'e' :: 'd' :: ':' ::
            (' ' :: '\"' :: (q ++ ('\"' :: (' ' :: arrowL))))) from rfl] at hmtY ⊢
        rw [findText_cons, hmtY]
        rfl
      simp only [matchAt, h0d, hl1, h1d, hl2, hl3, h3t, hdse, Bool.false_eq_true,
        if_false, h3d, hl4, h4d, hl5, h5d, hft, h0t, h1t, h4t, h5t]
      simp [sugClause, hqe]
    · -- nonempty description
      have hcw : jsWs c = false := hd3
      have h5d : (' ' :: ((c :: d2) ++ (sugClause (some q) ++
          (' ' :: arrowL)))).dropWhile jsWs =
          (c :: d2) ++ (' ' :: (sugL ++ (' ' :: '\"' :: (q ++ ('\"' ::
            (' ' :: arrowL)))))) := by
        rw [List.dropWhile_cons_of_pos (by decide),
          show (c :: d2) ++ (sugClause (some q) ++ (' ' :: arrowL)) =
            c :: (d2 ++ (sugClause (some q) ++ (' ' :: arrowL))) from rfl,
          List.dropWhile_cons_of_neg (by simp [hcw])]
        rw [show c :: (d2 ++ (sugClause (some q) ++ (' ' :: arrowL))) =
          (c :: d2) ++ (sugClause (some q) ++ (' ' :: arrowL)) from rfl, hclause]
      have h5t : (' ' :: ((c :: d2) ++ (sugClause (some q) ++
          (' ' :: arrowL)))).takeWhile jsWs = [' '] := by
        rw [List.takeWhile_cons_of_pos (by decide),
          show (c :: d2) ++ (sugClause (some q) ++ (' ' :: arrowL)) =
            c :: (d2 ++ (sugClause (some q) ++ (' ' :: arrowL))) from rfl,
          List.takeWhile_cons_of_neg (by simp [hcw])]
      have hmt : matchTail (' ' :: (sugL ++ (' ' :: '\"' :: (q ++ ('\"' ::
          (' ' :: arrowL)))))) =
          some (' ' :: (sugL ++ (' ' :: '\"' :: (q ++ ('\"' :: (' ' :: arrowL))))),
            some q, []) := by
        have := matchTail_sugClause [' '] q (by decide) hqq
        simpa using this
      have hft := findText_marker hmt (c :: d2) [] hd5 hd1 hd2 hd4
      simp only [matchAt, h0d, hl1, h1d, hl2, hl3, h3t, hdse, Bool.false_eq_true,
        if_false, h3d, hl4, h4d, hl5, h5d, hft, h0t, h1t, h4t, h5t]
      simp [sugClause, hqe]

theorem matchAt_nil : matchAt [] = none := by decide

theorem scanMarkers_nil (fuel : Nat) : scanMarkers fuel [] = ([], []) := by
  cases fuel with
  | zero => rfl
  | succ n => rw [scanMarkers_succ, matchAt_nil]

/-- C1 (amended): encoding a Suggestion whose id is `S` plus digits, whose
description avoids the delimiter `-->`, the keyword `Suggested:`, leading and
trailing whitespace and line terminators, and whose suggested text, when
present, is nonempty and free of `-->` and double quotes, and then parsing the
marker back with the resolver grammar, returns exactly one marker carrying the
original id, description and suggested text. The nonemptiness condition on the
suggested text is required: the annotator drops the Suggested clause for the
falsy empty string, so a suggestion with suggested `""` parses back with
suggested absent (see the counterexample). -/
theorem C1_roundtrip_amended (s : Suggestion) (hid : idOk s.id = true)
    (hd : descOk s.text = true) (hq : sugTextOk s.suggested = true) :
    commentsOnLine (encodeMarker s) =
      [⟨encodeMarker s, s.id, s.text, s.suggested⟩] := by
  obtain ⟨id, ln, k, d, sug, ctx⟩ := s
  dsimp only at hid hd hq ⊢
  cases id with
  | nil => simp [idOk] at hid
  | cons c ds =>
    simp only [idOk, Bool.and_eq_true, beq_iff_eq, Bool.not_eq_true'] at hid
    obtain ⟨⟨hc, hdse⟩, hdall⟩ := hid
    subst hc
    have hds1 : ds ≠ [] := by
      intro h
      rw [h] at hdse
      simp at hdse
    have hds2 : ∀ c ∈ ds, isDigitCh c = true := by
      intro c hc
      exact List.all_eq_true.mp hdall c hc
    simp only [descOk, Bool.and_eq_true, Bool.not_eq_true'] at hd
    obtain ⟨⟨⟨⟨harr, hsg⟩, hws⟩, hwsr⟩, hall⟩ := hd
    have hd5 : ∀ c ∈ d, isDotChar c = true := by
      intro c hc
      exact List.all_eq_true.mp hall c hc
    have hqc : ∀ q, sug = some q → q ≠ [] ∧ ∀ c ∈ q, (c != '\"') = true := by
      intro q hqe
      rw [hqe] at hq
      simp only [sugTextOk, Bool.and_eq_true, Bool.not_eq_true'] at hq
      obtain ⟨⟨hq1, hq2⟩, hq3⟩ := hq
      refine ⟨?_, ?_⟩
      · intro h
        rw [h] at hq1
        simp at hq1
      · intro c hc
        exact List.all_eq_true.mp hq3 c hc
    have hm := matchAt_encode ds d sug ln k ctx hds1 hds2 harr hsg hws hwsr hd5 hqc
    simp only [commentsOnLine]
    rw [scanMarkers_succ, hm]
    simp [scanMarkers_nil]

/-- C1 counterexample: the claim omits the Suggested clause only when the
suggested field is null, but the annotator also drops it for the falsy empty
string, so a suggestion with suggested text `""` round-trips to a marker whose
suggested field is absent rather than `""`. -/
theorem C1_counterexample :
    commentsOnLine (encodeMarker ⟨"S1".data, 1, .style, "w".data, some [], none⟩) =
      [⟨encodeMarker ⟨"S1".data, 1, .style, "w".data, some [], none⟩,
        "S1".data, "w".data, none⟩] ∧ some ([] : List Char) ≠ none := by
  constructor
  · decide
  · decide

/-- C1 witness: the amended round-trip theorem applied to a concrete
suggestion with a nonempty suggested replacement. -/
theorem C1_witness :
    idOk "S1".data = true ∧ descOk "wordy".data = true ∧
      sugTextOk (some "short".data) = true ∧
      commentsOnLine (encodeMarker
          ⟨"S1".data, 3, .style, "wordy".data, some "short".data, none⟩) =
        [⟨encodeMarker ⟨"S1".data, 3, .style, "wordy".data, some "short".data, none⟩,
          "S1".data, "wordy".data, some "short".data⟩] :=
  ⟨by decide, by decide, by decide,
    C1_roundtrip_amended ⟨"S1".data, 3, .style, "wordy".data, some "short".data, none⟩
      (by decide) (by decide) (by decide)⟩

end Proofread
